import Mathlib

/-!
# Balloon-pop game engine (`bpgame.c`): embedding and verified properties

The C engine keeps a singly linked list of board snapshots (`BPState`), newest first.
A snapshot owns a flat, row-major `char` array.  The embedding is shallow:

* a `char` is an `Int` (only equality of cell values is ever used by the code);
* a `BPState *` is an `Option BPState`; the `next` link of a node is the tail of the
  list that `BPGame.current` holds, so the empty list is the `NULL` pointer;
* a function that dereferences a pointer the code does not check returns `none`
  where that pointer is `NULL`;
* the recursion of `bps_pop` is bounded by an explicit `fuel` (the depth of the C stack);
  running out of fuel is `none`;
* `int` indices stay inside `[-1, nrows * ncols]` and are plain integers; the score is
  an `int` that is updated with an addition and a multiplication, modelled with 32-bit
  two's-complement wrap-around (`wrapInt`);
* `calloc`/`malloc` are assumed to succeed.
-/

namespace BP

/-- The constants of `bpgame.h` (the empty marker `None`, the four colours, and the maximal
dimensions).  The header is not among the sources, so the constants are parameters of the
whole development and nothing is assumed about their values. -/
structure Header where
  None : Int
  Red : Int
  Blue : Int
  Green : Int
  Yellow : Int
  MAX_ROWS : Int
  MAX_COLS : Int

/-- One node of the snapshot list: `struct bpstate` without its `next` link. -/
structure BPState where
  board : List Int
  score : Int
  nrows : Int
  ncols : Int
deriving DecidableEq

/-- The session, `struct bpgame`: `current` and everything reachable through `next`. -/
structure BPGame where
  current : List BPState
deriving DecidableEq

/-- Two's-complement reduction of an integer to the range of a 32-bit `int`. -/
def wrapInt (x : Int) : Int := (x + 2147483648) % 4294967296 - 2147483648

/-- The values `lo, lo+1, ..., hi-1` of a loop `for (i = lo; i < hi; i++)`. -/
def intRange (lo hi : Int) : List Int :=
  (List.range (hi - lo).toNat).map (fun (k : Nat) => lo + (k : Int))

/-- `bps_create`: a board of `nrows * ncols` cells, all `None`, score 0. -/
def bps_create (H : Header) (nrows ncols : Int) : Option BPState :=
  if nrows < 0 ∨ nrows > H.MAX_ROWS ∨ ncols < 0 ∨ ncols > H.MAX_COLS then none
  else some { board := List.replicate (nrows * ncols).toNat H.None,
              score := 0, nrows := nrows, ncols := ncols }

/-- `memcpy (dst, src, n)` on lists of bytes. -/
def memcpy (dst src : List Int) (n : Nat) : List Int := src.take n ++ dst.drop n

/-- `bps_copy`: same dimensions, board and score; the `next` link is left unset. -/
def bps_copy (H : Header) : Option BPState → Option BPState
  | none => none
  | some src =>
    match bps_create H src.nrows src.ncols with
    | none => none
    | some st =>
      some { st with board := memcpy st.board src.board (st.nrows * st.ncols).toNat,
                     score := src.score }

/-- `bps_get`: the cell at `(r, c)`, or `-1` for a null state or an index out of range. -/
def bps_get : Option BPState → Int → Int → Int
  | none, _, _ => -1
  | some s, r, c =>
    if r < 0 ∨ r ≥ s.nrows ∨ c < 0 ∨ c ≥ s.ncols then -1
    else s.board.getD (r * s.ncols + c).toNat 0

/-- `bps_set`: writes `val` at `(r, c)`; nothing happens for a null state or an index out
of range. -/
def bps_set : Option BPState → Int → Int → Int → Option BPState
  | none, _, _, _ => none
  | some s, r, c, val =>
    if r < 0 ∨ r ≥ s.nrows ∨ c < 0 ∨ c ≥ s.ncols then some s
    else some { s with board := s.board.set (r * s.ncols + c).toNat val }

/-- The write of `bps_set` through a pointer known to be non-null. -/
def setCell (s : BPState) (r c val : Int) : BPState :=
  if r < 0 ∨ r ≥ s.nrows ∨ c < 0 ∨ c ≥ s.ncols then s
  else { s with board := s.board.set (r * s.ncols + c).toNat val }

/-- `bps_pop`: the recursive flood fill.  The four recursive calls are made in the order in
which the source writes them (up, left, right, down), each on the state the previous one
left; C leaves the order of the operands of `+` to the compiler, and the properties proved
below (which cells are cleared, how many) do not mention the order.  `fuel` bounds the
nesting depth. -/
def bps_pop (H : Header) : Nat → BPState → Int → Int → Int → Option (BPState × Int)
  | 0, _, _, _, _ => none
  | fuel + 1, s, r, c, balloon =>
    if r < 0 ∨ r ≥ s.nrows ∨ c < 0 ∨ c ≥ s.ncols then some (s, 0)
    else if bps_get (some s) r c ≠ balloon then some (s, 0)
    else
      let s0 := setCell s r c H.None
      match bps_pop H fuel s0 (r - 1) c balloon with
      | none => none
      | some (s1, n1) =>
        match bps_pop H fuel s1 r (c - 1) balloon with
        | none => none
        | some (s2, n2) =>
          match bps_pop H fuel s2 r (c + 1) balloon with
          | none => none
          | some (s3, n3) =>
            match bps_pop H fuel s3 (r + 1) c balloon with
            | none => none
            | some (s4, n4) => some (s4, 1 + n1 + n2 + n3 + n4)

/-- `bp_pop`: pops the cluster of `(r, c)` on a copy of the current snapshot and pushes the
copy when at least two balloons went; returns the session and the number popped. -/
def bp_pop (H : Header) (fuel : Nat) (b : BPGame) (r c : Int) : Option (BPGame × Int) :=
  if bps_get b.current.head? r c = H.None then some (b, 0)
  else
    match bps_copy H b.current.head? with
    | none => some (b, 0)
    | some copy =>
      match bps_pop H fuel copy r c (bps_get (some copy) r c) with
      | none => none
      | some (popped, n) =>
        if n < 2 then some (b, 0)
        else
          some ({ current :=
                    { popped with score := wrapInt (popped.score + wrapInt (n * (n - 1))) }
                      :: b.current }, n)

/-- The test of the inner `if`s of `bp_is_compact` and `bp_float_one_step`:
a balloon at `(i, j)` with an empty slot right above it. -/
def floats (H : Header) (s : BPState) (i j : Int) : Bool :=
  decide (bps_get (some s) i j ≠ H.None) && decide (bps_get (some s) (i - 1) j = H.None)

/-- `bp_is_compact`: 0 as soon as the scan of rows `1 .. nrows-1` meets a balloon with an
empty slot right above it, 1 when the scan ends. -/
def bp_is_compact (H : Header) (b : BPGame) : Option Int :=
  match b.current with
  | [] => none
  | cur :: _ =>
    if (intRange 1 cur.nrows).any (fun i => (intRange 0 cur.ncols).any (fun j => floats H cur i j))
    then some 0 else some 1

/-- The body of the inner loop of `bp_float_one_step` at `(i, j)`. -/
def floatCell (H : Header) (s : BPState) (i j : Int) : BPState :=
  if floats H s i j then setCell (setCell s (i - 1) j (bps_get (some s) i j)) i j H.None
  else s

/-- The inner loop of `bp_float_one_step`: row `i`, columns `0 .. ncols-1`. -/
def floatRow (H : Header) (s : BPState) (i : Int) : BPState :=
  (intRange 0 s.ncols).foldl (fun st j => floatCell H st i j) s

/-- The two loops of `bp_float_one_step` on the current snapshot. -/
def floatState (H : Header) (s : BPState) : BPState :=
  (intRange 1 s.nrows).foldl (fun st i => floatRow H st i) s

/-- `bp_float_one_step`: one in-place pass over the current snapshot. -/
def bp_float_one_step (H : Header) (b : BPGame) : Option BPGame :=
  match b.current with
  | [] => none
  | cur :: rest => some { current := floatState H cur :: rest }

/-- `bp_score`. -/
def bp_score (b : BPGame) : Option Int :=
  match b.current with
  | [] => none
  | cur :: _ => some cur.score

/-- `bp_get_balloon`. -/
def bp_get_balloon (b : BPGame) (r c : Int) : Int := bps_get b.current.head? r c

/-- The test made by `bp_can_pop` at `(i, j)`: a balloon whose right or lower neighbour
holds the same value. -/
def pairAt (H : Header) (s : BPState) (i j : Int) : Bool :=
  decide (bps_get (some s) i j ≠ H.None) &&
    (decide (bps_get (some s) i (j + 1) = bps_get (some s) i j) ||
     decide (bps_get (some s) (i + 1) j = bps_get (some s) i j))

/-- `bp_can_pop`: 1 as soon as the scan of rows `0 .. nrows-2` and columns `0 .. ncols-2`
meets a balloon with an equal right or lower neighbour, 0 when the scan ends. -/
def bp_can_pop (H : Header) (b : BPGame) : Option Int :=
  match b.current with
  | [] => none
  | cur :: _ =>
    if (intRange 0 (cur.nrows - 1)).any
         (fun i => (intRange 0 (cur.ncols - 1)).any (fun j => pairAt H cur i j))
    then some 1 else some 0

/-- `bp_undo`: drops the current snapshot when it has a predecessor. -/
def bp_undo (b : BPGame) : Option (BPGame × Int) :=
  match b.current with
  | [] => none
  | [_] => some (b, 0)
  | _ :: nxt :: rest => some ({ current := nxt :: rest }, 1)

/-- The random fill of `bp_create`, column by column; `rnd k` is the value of the `k`-th
call of `rand ()`.  Returns the state and the number of calls made. -/
def randomFill (H : Header) (rnd : Nat → Nat) (cur : Option BPState) (nrows ncols : Int) :
    Option BPState × Nat :=
  (intRange 0 ncols).foldl (fun acc j =>
    (intRange 0 nrows).foldl (fun acc2 i =>
      (bps_set acc2.1 i j ([H.Red, H.Blue, H.Green, H.Yellow].getD (rnd acc2.2 % 4) 0),
        acc2.2 + 1)) acc) (cur, 0)

/-- `bp_create`: `none` is the `NULL` result; otherwise a session whose `current` is what
`bps_create` returned (possibly `NULL`), filled with random balloons. -/
def bp_create (H : Header) (rnd : Nat → Nat) (nrows ncols : Int) : Option BPGame :=
  if nrows > H.MAX_ROWS ∨ ncols > H.MAX_COLS then none
  else some { current := (randomFill H rnd (bps_create H nrows ncols) nrows ncols).1.toList }

/-- `bp_create_from_mtx`: `bp_create`, then every cell overwritten from `mtx`. -/
def bp_create_from_mtx (H : Header) (rnd : Nat → Nat) (mtx : Int → Int → Int)
    (nrows ncols : Int) : Option BPGame :=
  match bp_create H rnd nrows ncols with
  | none => none
  | some game =>
    some { current :=
      ((intRange 0 nrows).foldl (fun st i =>
        (intRange 0 ncols).foldl (fun st2 j => bps_set st2 i j (mtx i j)) st)
        game.current.head?).toList ++ game.current.tail }

/-- A sequence of `bp_pop` calls at the given positions, with the values they return. -/
def popAll (H : Header) (fuel : Nat) : BPGame → List (Int × Int) → Option (BPGame × List Int)
  | b, [] => some (b, [])
  | b, p :: ps =>
    match bp_pop H fuel b p.1 p.2 with
    | none => none
    | some (b1, n) =>
      match popAll H fuel b1 ps with
      | none => none
      | some (b2, ns) => some (b2, n :: ns)

/-- `k` successive `bp_undo` calls, with the values they return. -/
def undoAll : Nat → BPGame → Option (BPGame × List Int)
  | 0, b => some (b, [])
  | k + 1, b =>
    match bp_undo b with
    | none => none
    | some (b1, v) =>
      match undoAll k b1 with
      | none => none
      | some (b2, vs) => some (b2, v :: vs)

/-! ## Specification vocabulary -/

/-- The index `(r, c)` passes the range check of `bps_get` and `bps_set`. -/
def inRange (s : BPState) (r c : Int) : Prop := 0 ≤ r ∧ r < s.nrows ∧ 0 ≤ c ∧ c < s.ncols

instance (s : BPState) (r c : Int) : Decidable (inRange s r c) := by
  unfold inRange; infer_instance

/-- A snapshot as `bps_create` builds it: non-negative dimensions and a board of exactly
`nrows * ncols` cells. -/
def wfState (s : BPState) : Prop :=
  0 ≤ s.nrows ∧ 0 ≤ s.ncols ∧ s.board.length = (s.nrows * s.ncols).toNat

instance (s : BPState) : Decidable (wfState s) := by
  unfold wfState; infer_instance

/-- The dimensions pass the check of `bps_create` against the maxima. -/
def validDims (H : Header) (s : BPState) : Prop :=
  s.nrows ≤ H.MAX_ROWS ∧ s.ncols ≤ H.MAX_COLS

instance (H : Header) (s : BPState) : Decidable (validDims H s) := by
  unfold validDims; infer_instance

/-- A board position `(row, column)`. -/
abbrev Cell := Int × Int

/-- The value `bps_get` reads at a position. -/
def cellAt (s : BPState) (x : Cell) : Int := bps_get (some s) x.1 x.2

/-- The position is on the board and holds the token `t`. -/
def holds (s : BPState) (t : Int) (x : Cell) : Prop := inRange s x.1 x.2 ∧ cellAt s x = t

/-- The cell `y` is the upper, left, right or lower neighbour of `x`. -/
def Adj (x y : Cell) : Prop :=
  y = (x.1 - 1, x.2) ∨ y = (x.1, x.2 - 1) ∨ y = (x.1, x.2 + 1) ∨ y = (x.1 + 1, x.2)

/-- `Conn s t x y`: there is a path from `x` to `y` that moves between 4-adjacent cells
and visits only on-board cells holding `t`. -/
inductive Conn (s : BPState) (t : Int) : Cell → Cell → Prop
  | refl {x : Cell} : holds s t x → Conn s t x x
  | step {x y z : Cell} : Conn s t x y → Adj y z → holds s t z → Conn s t x z

/-- The cluster of `(r, c)`: the maximal 4-connected set of cells that hold the token of
`(r, c)` and contains `(r, c)`. -/
def cluster (s : BPState) (r c : Int) : Set Cell :=
  {x | Conn s (bps_get (some s) r c) (r, c) x}

/-- All positions of the board. -/
def grid (s : BPState) : Finset Cell := Finset.Ico 0 s.nrows ×ˢ Finset.Ico 0 s.ncols

/-- The positions of the board that hold `t`. -/
def cellsOf (s : BPState) (t : Int) : Finset Cell := (grid s).filter (fun x => cellAt s x = t)

/-- What a (sequence of) flood-fill call(s) for the token `t` does to a snapshot: cells
only change from `t` to `None`, every changed cell satisfies `S`, no cell still holding
`t` touches a changed cell, and `n` counts the changed cells. -/
structure Flood (H : Header) (t : Int) (s s1 : BPState) (n : Int) (S : Cell → Prop) :
    Prop where
  nrows : s1.nrows = s.nrows
  ncols : s1.ncols = s.ncols
  score : s1.score = s.score
  wf : wfState s1
  frame : ∀ x, cellAt s1 x = cellAt s x ∨ (holds s t x ∧ cellAt s1 x = H.None ∧ S x)
  closed : ∀ x y, holds s t x → ¬ holds s1 t x → Adj x y → ¬ holds s1 t y
  count : n + ((cellsOf s1 t).card : Int) = ((cellsOf s t).card : Int)
  nonneg : 0 ≤ n

/-- `k` successive calls of `bp_float_one_step`. -/
def floatSteps (H : Header) : Nat → BPGame → Option BPGame
  | 0, b => some b
  | k + 1, b =>
    match bp_float_one_step H b with
    | none => none
    | some b1 => floatSteps H k b1

/-- Column `j` holds balloons in all rows `0 .. i`. -/
def fullTo (H : Header) (s : BPState) (i j : Int) : Prop :=
  ∀ k, 0 ≤ k → k ≤ i → bps_get (some s) k j ≠ H.None

/-- The value right below `(i, j)`, or `None` below the last row. -/
def belowOf (H : Header) (s : BPState) (i j : Int) : Int :=
  if i + 1 < s.nrows then bps_get (some s) (i + 1) j else H.None

/-- The value a float step leaves at `(a, b)`: the old value while the column is full down
to row `a`, the value from right below otherwise. -/
def FloatFinal (H : Header) (s : BPState) (a b v : Int) : Prop :=
  (fullTo H s a b → v = bps_get (some s) a b) ∧ (¬ fullTo H s a b → v = belowOf H s a b)

/-- The value at `(a, b)` while the float step is working on row `a + 1`: the balloon of
the cell has left when there is a gap at or above it, and nothing has arrived yet. -/
def FloatPending (H : Header) (s : BPState) (a b v : Int) : Prop :=
  (fullTo H s a b → v = bps_get (some s) a b) ∧ (¬ fullTo H s a b → v = H.None)

/-- The value at `(a, b)` when the float step is about to work on row `i`. -/
def FloatRowInv (H : Header) (s : BPState) (i a b v : Int) : Prop :=
  (a + 1 < i → FloatFinal H s a b v) ∧ (a + 1 = i → FloatPending H s a b v) ∧
    (i ≤ a → v = bps_get (some s) a b)

/-- The snapshot `st` is well-formed and has the dimensions and the score of `s`. -/
def SameShape (s st : BPState) : Prop :=
  wfState st ∧ st.nrows = s.nrows ∧ st.ncols = s.ncols ∧ st.score = s.score

/-- From row `m` down, only empty cells lie at or below a gap of their column. -/
def settledFrom (H : Header) (s : BPState) (m : Int) : Prop :=
  ∀ i j, inRange s i j → m ≤ i → ¬ fullTo H s i j → bps_get (some s) i j = H.None

/-- Column `j` of the board, top to bottom. -/
def column (s : BPState) (j : Int) : List Int :=
  (intRange 0 s.nrows).map (fun i => bps_get (some s) i j)

/-- The balloons of a list of cell values, in order. -/
def balloons (H : Header) (l : List Int) : List Int := l.filter (fun v => decide (v ≠ H.None))

/-- A column with its first empty cell taken out and an empty cell added at the bottom. -/
def shiftUp (N : Int) : List Int → List Int
  | [] => []
  | a :: l => if a = N then l ++ [N] else a :: shiftUp N l

/-! ## Concrete boards used for evaluation -/

/-- A concrete header for evaluating the functions on sample boards: the glyphs of the
display examples in the comments of `bpgame.c` (`'.'` for an empty slot, `'^'`, `'='`, `'o'`
and `'+'` for the colours) and 40 by 40 as the maxima. -/
def stdHeader : Header :=
  { None := 46, Red := 94, Blue := 61, Green := 111, Yellow := 43, MAX_ROWS := 40, MAX_COLS := 40 }

/-- A board of one column with two balloons and a gap above each. -/
def gapColumn : BPState := { board := [46, 94, 46, 61], score := 0, nrows := 4, ncols := 1 }

/-- A 2 by 2 board whose only equal neighbours are the two cells of the last row. -/
def lastRowPair : BPState := { board := [94, 61, 111, 111], score := 0, nrows := 2, ncols := 2 }

/-- A board of one row holding two balloons of the same colour. -/
def pairBoard : BPState := { board := [94, 94], score := 0, nrows := 1, ncols := 2 }

/-- The board `pairBoard` after its two balloons were popped. -/
def pairPopped : BPState := { board := [46, 46], score := 2, nrows := 1, ncols := 2 }

/-! ## Reachable sessions -/

/-- The sessions a client can hold: what `bp_create` or `bp_create_from_mtx` returns for
non-negative dimensions, and what `bp_pop`, `bp_undo` and `bp_float_one_step` make of a
reachable session whenever they return. -/
inductive Reachable (H : Header) : BPGame → Prop
  | create (rnd : Nat → Nat) (nrows ncols : Int) (b : BPGame) : 0 ≤ nrows → 0 ≤ ncols →
      bp_create H rnd nrows ncols = some b → Reachable H b
  | from_mtx (rnd : Nat → Nat) (mtx : Int → Int → Int) (nrows ncols : Int) (b : BPGame) :
      0 ≤ nrows → 0 ≤ ncols → bp_create_from_mtx H rnd mtx nrows ncols = some b →
      Reachable H b
  | pop (fuel : Nat) (b b1 : BPGame) (r c n : Int) : Reachable H b →
      bp_pop H fuel b r c = some (b1, n) → Reachable H b1
  | undo (b b1 : BPGame) (v : Int) : Reachable H b → bp_undo b = some (b1, v) →
      Reachable H b1
  | float (b b1 : BPGame) : Reachable H b → bp_float_one_step H b = some b1 → Reachable H b1

/-- A snapshot of a reachable session: well-formed, within the maxima, with a score between
0 and `e * (e - 1)`, where `e` is the number of empty cells. -/
def GoodState (H : Header) (s : BPState) : Prop :=
  wfState s ∧ validDims H s ∧ 0 ≤ s.score ∧
    s.score ≤ ((cellsOf s H.None).card : Int) * (((cellsOf s H.None).card : Int) - 1)

/-- The chain of snapshots, newest first, against the counts of the pops that pushed them:
every snapshot is good, the oldest has score 0, and each pop of `n` balloons added
`n * (n - 1)` to the score of the snapshot below. -/
def ChainScores (H : Header) : List BPState → List Int → Prop
  | [s], [] => GoodState H s ∧ s.score = 0
  | s :: s1 :: rest, n :: ns =>
    GoodState H s ∧ 2 ≤ n ∧ s.score = s1.score + n * (n - 1) ∧ ChainScores H (s1 :: rest) ns
  | _, _ => False

/-! ## Further boards used for evaluation -/

/-- A board of one column and three rows with a gap on top of two balloons. -/
def gapOnTop : BPState := { board := [46, 94, 61], score := 0, nrows := 3, ncols := 1 }

/-- The 4 by 4 matrix with rows `a a b c`, `b b c c`, `a a b c`, `d d d d`. -/
def scenarioMtx (a b c d : Int) : Int → Int → Int :=
  fun i j => ([[a, a, b, c], [b, b, c, c], [a, a, b, c], [d, d, d, d]].getD i.toNat []).getD
    j.toNat 0

/-- The snapshot holding the matrix `scenarioMtx`, with score 0. -/
def scenarioBoard (a b c d : Int) : BPState :=
  { board := [a, a, b, c, b, b, c, c, a, a, b, c, d, d, d, d], score := 0, nrows := 4, ncols := 4 }

/-- The scenario board after the pop at `(0, 0)`: the two cells `(0, 0)` and `(0, 1)` are
empty and the score is 2. -/
def scenarioFirst (N a b c d : Int) : BPState :=
  { board := [N, N, b, c, b, b, c, c, a, a, b, c, d, d, d, d], score := 2, nrows := 4, ncols := 4 }

/-- The scenario board after the following pop at `(3, 0)`: the last row is empty as well and
the score is 14. -/
def scenarioSecond (N a b c : Int) : BPState :=
  { board := [N, N, b, c, b, b, c, c, a, a, b, c, N, N, N, N], score := 14, nrows := 4,
    ncols := 4 }

/-! ## Well-formed snapshots and the laws of cell access -/

theorem not_inRange_iff (s : BPState) (r c : Int) :
    (r < 0 ∨ r ≥ s.nrows ∨ c < 0 ∨ c ≥ s.ncols) ↔ ¬ inRange s r c := by
  unfold inRange; constructor
  · rintro (h | h | h | h) ⟨h1, h2, h3, h4⟩ <;> omega
  · intro h; by_contra hc; apply h; push_neg at hc; omega

theorem bps_get_inRange {s : BPState} {r c : Int} (h : inRange s r c) :
    bps_get (some s) r c = s.board.getD (r * s.ncols + c).toNat 0 := by
  have := (not_inRange_iff s r c).not.mpr (not_not.mpr h)
  simp only [bps_get, if_neg this]

theorem bps_get_not_inRange {s : BPState} {r c : Int} (h : ¬ inRange s r c) :
    bps_get (some s) r c = -1 := by
  have := (not_inRange_iff s r c).mpr h
  simp only [bps_get, if_pos this]

theorem setCell_inRange {s : BPState} {r c : Int} (v : Int) (h : inRange s r c) :
    setCell s r c v = { s with board := s.board.set (r * s.ncols + c).toNat v } := by
  have := (not_inRange_iff s r c).not.mpr (not_not.mpr h)
  simp only [setCell, if_neg this]

theorem setCell_not_inRange {s : BPState} {r c : Int} (v : Int) (h : ¬ inRange s r c) :
    setCell s r c v = s := by
  have := (not_inRange_iff s r c).mpr h
  simp only [setCell, if_pos this]

theorem bps_set_some (s : BPState) (r c v : Int) :
    bps_set (some s) r c v = some (setCell s r c v) := by
  simp only [bps_set, setCell]; split <;> rfl

@[simp] theorem setCell_nrows (s : BPState) (r c v : Int) : (setCell s r c v).nrows = s.nrows := by
  unfold setCell; split <;> rfl

@[simp] theorem setCell_ncols (s : BPState) (r c v : Int) : (setCell s r c v).ncols = s.ncols := by
  unfold setCell; split <;> rfl

@[simp] theorem setCell_score (s : BPState) (r c v : Int) : (setCell s r c v).score = s.score := by
  unfold setCell; split <;> rfl

theorem setCell_board_length (s : BPState) (r c v : Int) :
    (setCell s r c v).board.length = s.board.length := by
  unfold setCell; split
  · rfl
  · simp

@[simp] theorem inRange_setCell (s : BPState) (r c v r1 c1 : Int) :
    inRange (setCell s r c v) r1 c1 ↔ inRange s r1 c1 := by
  simp [inRange]

theorem wfState_setCell {s : BPState} (h : wfState s) (r c v : Int) :
    wfState (setCell s r c v) := by
  obtain ⟨h1, h2, h3⟩ := h
  refine ⟨by simpa using h1, by simpa using h2, ?_⟩
  rw [setCell_board_length, h3]; simp

/-- The flat index of an in-range cell lies inside a well-formed board. -/
theorem flat_lt {s : BPState} (hw : wfState s) {r c : Int} (h : inRange s r c) :
    (r * s.ncols + c).toNat < s.board.length := by
  obtain ⟨h1, h2, h3⟩ := hw
  obtain ⟨r0, r1, c0, c1⟩ := h
  rw [h3]
  have hr : r + 1 ≤ s.nrows := by omega
  have h4 : (r + 1) * s.ncols ≤ s.nrows * s.ncols := Int.mul_le_mul_of_nonneg_right hr h2
  have h5 : 0 ≤ r * s.ncols := Int.mul_nonneg r0 h2
  have h6 : (r + 1) * s.ncols = r * s.ncols + s.ncols := by ring
  omega

/-- Row-major indexing is injective on in-range cells. -/
theorem flat_inj {n r c r1 c1 : Int} (hc : 0 ≤ c) (hc' : c < n) (hd : 0 ≤ c1) (hd' : c1 < n)
    (hr : 0 ≤ r) (hr1 : 0 ≤ r1)
    (h : (r * n + c).toNat = (r1 * n + c1).toNat) : r = r1 ∧ c = c1 := by
  have hn : 0 ≤ n := by omega
  have e1 : 0 ≤ r * n := Int.mul_nonneg hr hn
  have e2 : 0 ≤ r1 * n := Int.mul_nonneg hr1 hn
  have e : r * n + c = r1 * n + c1 := by omega
  have hrr : r = r1 := by
    rcases lt_trichotomy r r1 with hlt | heq | hgt
    · exfalso
      have : (r + 1) * n ≤ r1 * n := Int.mul_le_mul_of_nonneg_right (by omega) hn
      have h6 : (r + 1) * n = r * n + n := by ring
      omega
    · exact heq
    · exfalso
      have : (r1 + 1) * n ≤ r * n := Int.mul_le_mul_of_nonneg_right (by omega) hn
      have h6 : (r1 + 1) * n = r1 * n + n := by ring
      omega
  subst hrr
  exact ⟨rfl, by omega⟩

theorem get_setCell_same {s : BPState} (hw : wfState s) {r c : Int} (h : inRange s r c)
    (v : Int) : bps_get (some (setCell s r c v)) r c = v := by
  have h' : inRange (setCell s r c v) r c := by simpa using h
  rw [bps_get_inRange h', setCell_inRange v h]
  simp only
  have := flat_lt hw h
  rw [List.getD_eq_getElem?_getD, List.getElem?_set_self this]
  rfl

theorem get_setCell_other (s : BPState) {r c r1 c1 : Int} (v : Int)
    (hne : ¬ (r1 = r ∧ c1 = c)) :
    bps_get (some (setCell s r c v)) r1 c1 = bps_get (some s) r1 c1 := by
  by_cases h1 : inRange s r1 c1
  · have h1' : inRange (setCell s r c v) r1 c1 := by simpa using h1
    rw [bps_get_inRange h1', bps_get_inRange h1]
    by_cases h : inRange s r c
    · rw [setCell_inRange v h]
      simp only
      have hidx : (r * s.ncols + c).toNat ≠ (r1 * s.ncols + c1).toNat := by
        intro e
        obtain ⟨a0, a1, a2, a3⟩ := h
        obtain ⟨b0, b1, b2, b3⟩ := h1
        have := flat_inj a2 a3 b2 b3 a0 b0 e
        exact hne ⟨this.1.symm, this.2.symm⟩
      rw [List.getD_eq_getElem?_getD, List.getD_eq_getElem?_getD, List.getElem?_set_ne hidx]
    · rw [setCell_not_inRange v h]
  · have h1' : ¬ inRange (setCell s r c v) r1 c1 := by simpa using h1
    rw [bps_get_not_inRange h1', bps_get_not_inRange h1]

/-- The combined read-after-write law on well-formed snapshots. -/
theorem get_setCell {s : BPState} (hw : wfState s) {r c : Int} (h : inRange s r c)
    (v r1 c1 : Int) :
    bps_get (some (setCell s r c v)) r1 c1 =
      if r1 = r ∧ c1 = c then v else bps_get (some s) r1 c1 := by
  split
  · next e => obtain ⟨rfl, rfl⟩ := e; exact get_setCell_same hw h v
  · next e => exact get_setCell_other s v e

/-! ## Clusters: 4-connectivity through cells of one token -/

theorem mem_grid (s : BPState) (x : Cell) : x ∈ grid s ↔ inRange s x.1 x.2 := by
  simp [grid, inRange, Finset.mem_product, Finset.mem_Ico, and_assoc]

theorem mem_cellsOf (s : BPState) (t : Int) (x : Cell) : x ∈ cellsOf s t ↔ holds s t x := by
  simp [cellsOf, holds, mem_grid]

theorem Adj.symm {x y : Cell} (h : Adj x y) : Adj y x := by
  obtain ⟨a, b⟩ := x
  rcases h with rfl | rfl | rfl | rfl
  · right; right; right; simp
  · right; right; left; simp
  · right; left; simp
  · left; simp

theorem Conn.holds_left {s : BPState} {t : Int} {x y : Cell} (h : Conn s t x y) :
    holds s t x := by
  induction h with
  | refl h => exact h
  | step _ _ _ ih => exact ih

theorem Conn.holds_right {s : BPState} {t : Int} {x y : Cell} (h : Conn s t x y) :
    holds s t y := by
  cases h with
  | refl h => exact h
  | step _ _ h => exact h

theorem Conn.trans {s : BPState} {t : Int} {x y z : Cell} (h1 : Conn s t x y)
    (h2 : Conn s t y z) : Conn s t x z := by
  induction h2 with
  | refl _ => exact h1
  | step _ ha hz ih => exact Conn.step ih ha hz

theorem Conn.head {s : BPState} {t : Int} {x y z : Cell} (hx : holds s t x) (ha : Adj x y)
    (h : Conn s t y z) : Conn s t x z :=
  Conn.trans (Conn.step (Conn.refl hx) ha h.holds_left) h

theorem Conn.mono {s s1 : BPState} {t : Int} (hm : ∀ x, holds s1 t x → holds s t x)
    {x y : Cell} (h : Conn s1 t x y) : Conn s t x y := by
  induction h with
  | refl h => exact Conn.refl (hm _ h)
  | step _ ha hz ih => exact Conn.step ih ha (hm _ hz)

theorem Conn.reverse {s : BPState} {t : Int} {x y : Cell} (h : Conn s t x y) : Conn s t y x := by
  induction h with
  | refl h => exact Conn.refl h
  | step h1 ha hz ih => exact Conn.head hz ha.symm ih

theorem holds_setCell {s : BPState} (hw : wfState s) {r c : Int} (hr : inRange s r c)
    {t v : Int} (hv : t ≠ v) (x : Cell) :
    holds (setCell s r c v) t x ↔ holds s t x ∧ x ≠ (r, c) := by
  obtain ⟨a, b⟩ := x
  simp only [holds, cellAt, inRange_setCell, get_setCell hw hr, ne_eq, Prod.mk.injEq]
  by_cases e : a = r ∧ b = c
  · simp only [e, and_self, if_true, not_true, and_false, iff_false, not_and]
    intro _ h; exact hv h.symm
  · simp [e]

theorem cellsOf_setCell {s : BPState} (hw : wfState s) {r c : Int} (hr : inRange s r c)
    {t v : Int} (hv : t ≠ v) :
    cellsOf (setCell s r c v) t = (cellsOf s t).erase (r, c) := by
  ext x
  rw [mem_cellsOf, holds_setCell hw hr hv, Finset.mem_erase, mem_cellsOf, and_comm]

/-! ## The flood fill clears exactly the cluster -/

theorem Flood.refl (H : Header) (t : Int) {s : BPState} (hw : wfState s) (S : Cell → Prop) :
    Flood H t s s 0 S where
  nrows := rfl
  ncols := rfl
  score := rfl
  wf := hw
  frame := fun _ => Or.inl rfl
  closed := fun _ _ h1 h2 => absurd h1 h2
  count := by simp
  nonneg := le_refl 0

theorem Flood.holds_mono {H : Header} {t : Int} {s s1 : BPState} {n : Int}
    {S : Cell → Prop} (h : Flood H t s s1 n S) (x : Cell) (hx : holds s1 t x) :
    holds s t x := by
  have hr : inRange s x.1 x.2 := by
    have := hx.1; unfold inRange at this ⊢; rw [h.nrows, h.ncols] at this; exact this
  rcases h.frame x with e | ⟨h1, _, _⟩
  · exact ⟨hr, e ▸ hx.2⟩
  · exact h1

theorem Flood.weaken {H : Header} {t : Int} {s s1 : BPState} {n : Int} {S : Cell → Prop}
    (h : Flood H t s s1 n S) (S1 : Cell → Prop) (hS : ∀ x, S x → S1 x) : Flood H t s s1 n S1 where
  nrows := h.nrows
  ncols := h.ncols
  score := h.score
  wf := h.wf
  frame := fun x => (h.frame x).imp id (fun ⟨a, b, c⟩ => ⟨a, b, hS x c⟩)
  closed := h.closed
  count := h.count
  nonneg := h.nonneg

theorem Flood.comp {H : Header} {t : Int} {s s1 s2 : BPState} {n m : Int}
    {S : Cell → Prop} (h1 : Flood H t s s1 n S) (h2 : Flood H t s1 s2 m S) :
    Flood H t s s2 (n + m) S where
  nrows := h2.nrows.trans h1.nrows
  ncols := h2.ncols.trans h1.ncols
  score := h2.score.trans h1.score
  wf := h2.wf
  frame := by
    intro x
    rcases h2.frame x with e | ⟨a, b, c⟩
    · rcases h1.frame x with e1 | ⟨a1, b1, c1⟩
      · exact Or.inl (e.trans e1)
      · exact Or.inr ⟨a1, e.trans b1, c1⟩
    · exact Or.inr ⟨h1.holds_mono x a, b, c⟩
  closed := by
    intro x y hx hx2 ha
    by_cases hx1 : holds s1 t x
    · exact h2.closed x y hx1 hx2 ha
    · exact fun hy => h1.closed x y hx hx1 ha (h2.holds_mono y hy)
  count := by
    have := h1.count; have := h2.count; omega
  nonneg := Int.add_nonneg h1.nonneg h2.nonneg

theorem bps_pop_miss (H : Header) (fuel : Nat) (s : BPState) (r c t : Int)
    (h : ¬ holds s t (r, c)) : bps_pop H (fuel + 1) s r c t = some (s, 0) := by
  unfold bps_pop
  by_cases hr : inRange s r c
  · have h1 := (not_inRange_iff s r c).not.mpr (not_not.mpr hr)
    have h2 : bps_get (some s) r c ≠ t := fun e => h ⟨hr, e⟩
    simp only [if_neg h1, if_pos h2]
  · have h1 := (not_inRange_iff s r c).mpr hr
    simp only [if_pos h1]

theorem bps_pop_hit (H : Header) (fuel : Nat) (s : BPState) (r c t : Int)
    (h : holds s t (r, c)) :
    bps_pop H (fuel + 1) s r c t =
      (bps_pop H fuel (setCell s r c H.None) (r - 1) c t).bind fun p1 =>
      (bps_pop H fuel p1.1 r (c - 1) t).bind fun p2 =>
      (bps_pop H fuel p2.1 r (c + 1) t).bind fun p3 =>
      (bps_pop H fuel p3.1 (r + 1) c t).bind fun p4 =>
        some (p4.1, 1 + p1.2 + p2.2 + p3.2 + p4.2) := by
  have h1 := (not_inRange_iff s r c).not.mpr (not_not.mpr h.1)
  have h2 : ¬ (bps_get (some s) r c ≠ t) := not_not.mpr h.2
  rw [bps_pop]
  simp only [if_neg h1, if_neg h2]
  cases bps_pop H fuel (setCell s r c H.None) (r - 1) c t with
  | none => rfl
  | some p1 =>
    obtain ⟨s1, n1⟩ := p1
    simp only [Option.some_bind]
    cases bps_pop H fuel s1 r (c - 1) t with
    | none => rfl
    | some p2 =>
      obtain ⟨s2, n2⟩ := p2
      simp only [Option.some_bind]
      cases bps_pop H fuel s2 r (c + 1) t with
      | none => rfl
      | some p3 =>
        obtain ⟨s3, n3⟩ := p3
        simp only [Option.some_bind]
        cases bps_pop H fuel s3 (r + 1) c t with
        | none => rfl
        | some p4 => rfl

/-- The flood fill from `(r, c)` for a token other than `None`, given fuel above the number
of cells holding the token: it returns, clears only cells connected to `(r, c)`, clears
`(r, c)` itself, leaves no cell holding the token next to a cleared one, and counts the
cleared cells. -/
theorem bps_pop_flood (H : Header) {t : Int} (ht : t ≠ H.None) :
    ∀ (fuel : Nat) (s : BPState) (r c : Int), wfState s → (cellsOf s t).card < fuel →
      ∃ s1 n, bps_pop H fuel s r c t = some (s1, n) ∧
        Flood H t s s1 n (fun x => Conn s t (r, c) x) ∧ ¬ holds s1 t (r, c) ∧
        (¬ holds s t (r, c) → s1 = s) := by
  intro fuel
  induction fuel with
  | zero => intro s r c _ h; omega
  | succ fuel ih =>
    intro s r c hw hfuel
    by_cases hh : holds s t (r, c)
    · -- the cell is cleared and the four neighbours are visited in turn
      have hr := hh.1
      have hw0 : wfState (setCell s r c H.None) := wfState_setCell hw _ _ _
      have hcells := cellsOf_setCell hw hr ht
      have hmem : (r, c) ∈ cellsOf s t := (mem_cellsOf s t _).mpr hh
      have hcard0 : (cellsOf (setCell s r c H.None) t).card + 1 = (cellsOf s t).card := by
        rw [hcells, Finset.card_erase_of_mem hmem]
        have := Finset.card_pos.mpr ⟨_, hmem⟩
        omega
      have hm0 : ∀ x, holds (setCell s r c H.None) t x → holds s t x :=
        fun x hx => ((holds_setCell hw hr ht x).mp hx).1
      -- first call
      obtain ⟨s1, n1, e1, f1, c1, -⟩ := ih (setCell s r c H.None) (r - 1) c hw0 (by omega)
      have hc1 : (cellsOf s1 t).card < fuel := by have := f1.count; have := f1.nonneg; omega
      obtain ⟨s2, n2, e2, f2, c2, -⟩ := ih s1 r (c - 1) f1.wf hc1
      have hc2 : (cellsOf s2 t).card < fuel := by have := f2.count; have := f2.nonneg; omega
      obtain ⟨s3, n3, e3, f3, c3, -⟩ := ih s2 r (c + 1) f2.wf hc2
      have hc3 : (cellsOf s3 t).card < fuel := by have := f3.count; have := f3.nonneg; omega
      obtain ⟨s4, n4, e4, f4, c4, -⟩ := ih s3 (r + 1) c f3.wf hc3
      have hm1 := f1.holds_mono
      have hm2 := f2.holds_mono
      have hm3 := f3.holds_mono
      have hm4 := f4.holds_mono
      -- every cell one of the calls reaches is connected to `(r, c)` in `s`
      have up : Adj (r, c) (r - 1, c) := Or.inl rfl
      have left : Adj (r, c) (r, c - 1) := Or.inr (Or.inl rfl)
      have right : Adj (r, c) (r, c + 1) := Or.inr (Or.inr (Or.inl rfl))
      have down : Adj (r, c) (r + 1, c) := Or.inr (Or.inr (Or.inr rfl))
      have g1 := f1.weaken (fun x => Conn s t (r, c) x)
        (fun x hx => Conn.head hh up (Conn.mono hm0 hx))
      have g2 := f2.weaken (fun x => Conn s t (r, c) x)
        (fun x hx => Conn.head hh left (Conn.mono (fun y hy => hm0 y (hm1 y hy)) hx))
      have g3 := f3.weaken (fun x => Conn s t (r, c) x)
        (fun x hx => Conn.head hh right
          (Conn.mono (fun y hy => hm0 y (hm1 y (hm2 y hy))) hx))
      have g4 := f4.weaken (fun x => Conn s t (r, c) x)
        (fun x hx => Conn.head hh down
          (Conn.mono (fun y hy => hm0 y (hm1 y (hm2 y (hm3 y hy)))) hx))
      have g := ((g1.comp g2).comp g3).comp g4
      have hm : ∀ x, holds s4 t x → holds (setCell s r c H.None) t x := g.holds_mono
      have hrc4 : ¬ holds s4 t (r, c) := fun h4 =>
        ((holds_setCell hw hr ht (r, c)).mp (hm _ h4)).2 rfl
      refine ⟨s4, 1 + n1 + n2 + n3 + n4, ?_, ?_, hrc4, fun hn => absurd hh hn⟩
      · rw [bps_pop_hit H fuel s r c t hh, e1]
        simp only [Option.some_bind]
        rw [e2]; simp only [Option.some_bind]
        rw [e3]; simp only [Option.some_bind]
        rw [e4]; simp only [Option.some_bind]
      · refine
          { nrows := by rw [g.nrows]; simp
            ncols := by rw [g.ncols]; simp
            score := by rw [g.score]; simp
            wf := g.wf
            frame := ?_
            closed := ?_
            count := by have := g.count; omega
            nonneg := by have := g.nonneg; omega }
        · intro x
          by_cases hx : x = (r, c)
          · subst hx
            right
            refine ⟨hh, ?_, Conn.refl hh⟩
            have h0 : cellAt (setCell s r c H.None) (r, c) = H.None := get_setCell_same hw hr _
            rcases g.frame (r, c) with e | ⟨_, e, _⟩
            · exact e.trans h0
            · exact e
          · have h0 : cellAt (setCell s r c H.None) x = cellAt s x :=
              get_setCell_other s _ (fun e => hx (Prod.ext e.1 e.2))
            rcases g.frame x with e | ⟨a, b, d⟩
            · exact Or.inl (e.trans h0)
            · exact Or.inr ⟨hm0 x a, b, d⟩
        · intro x y hx hx4 ha
          by_cases hxe : x = (r, c)
          · subst hxe
            rcases ha with rfl | rfl | rfl | rfl
            · exact fun h4 => c1 (hm2 _ (hm3 _ (hm4 _ h4)))
            · exact fun h4 => c2 (hm3 _ (hm4 _ h4))
            · exact fun h4 => c3 (hm4 _ h4)
            · exact c4
          · exact g.closed x y ((holds_setCell hw hr ht x).mpr ⟨hx, hxe⟩) hx4 ha
    · exact ⟨s, 0, bps_pop_miss H fuel s r c t hh, Flood.refl H t hw _, hh, fun _ => rfl⟩

/-- More fuel does not change a result of the flood fill. -/
theorem bps_pop_fuel_succ (H : Header) (t : Int) :
    ∀ (fuel : Nat) (s : BPState) (r c : Int) (p : BPState × Int),
      bps_pop H fuel s r c t = some p → bps_pop H (fuel + 1) s r c t = some p := by
  intro fuel
  induction fuel with
  | zero => intro s r c p h; simp [bps_pop] at h
  | succ fuel ih =>
    intro s r c p h
    by_cases hh : holds s t (r, c)
    · rw [bps_pop_hit H fuel s r c t hh] at h
      rw [bps_pop_hit H (fuel + 1) s r c t hh]
      obtain ⟨p1, e1, h⟩ := Option.bind_eq_some.mp h
      obtain ⟨p2, e2, h⟩ := Option.bind_eq_some.mp h
      obtain ⟨p3, e3, h⟩ := Option.bind_eq_some.mp h
      obtain ⟨p4, e4, h⟩ := Option.bind_eq_some.mp h
      rw [ih _ _ _ _ e1]; simp only [Option.some_bind]
      rw [ih _ _ _ _ e2]; simp only [Option.some_bind]
      rw [ih _ _ _ _ e3]; simp only [Option.some_bind]
      rw [ih _ _ _ _ e4]; simp only [Option.some_bind]
      exact h
    · rw [bps_pop_miss H fuel s r c t hh] at h
      rw [bps_pop_miss H (fuel + 1) s r c t hh]
      exact h

theorem bps_pop_fuel_mono (H : Header) (t : Int) {fuel fuel1 : Nat} (hle : fuel ≤ fuel1)
    {s : BPState} {r c : Int} {p : BPState × Int} (h : bps_pop H fuel s r c t = some p) :
    bps_pop H fuel1 s r c t = some p := by
  induction hle with
  | refl => exact h
  | step _ ih => exact bps_pop_fuel_succ H t _ s r c p ih

/-- The flood fill never touches the dimensions or the score, and never counts below 0. -/
theorem bps_pop_keeps (H : Header) (t : Int) :
    ∀ (fuel : Nat) (s : BPState) (r c : Int) (p : BPState × Int),
      bps_pop H fuel s r c t = some p →
        p.1.nrows = s.nrows ∧ p.1.ncols = s.ncols ∧ p.1.score = s.score ∧ 0 ≤ p.2 := by
  intro fuel
  induction fuel with
  | zero => intro s r c p h; simp [bps_pop] at h
  | succ fuel ih =>
    intro s r c p h
    by_cases hh : holds s t (r, c)
    · rw [bps_pop_hit H fuel s r c t hh] at h
      obtain ⟨p1, e1, h⟩ := Option.bind_eq_some.mp h
      obtain ⟨p2, e2, h⟩ := Option.bind_eq_some.mp h
      obtain ⟨p3, e3, h⟩ := Option.bind_eq_some.mp h
      obtain ⟨p4, e4, h⟩ := Option.bind_eq_some.mp h
      obtain ⟨a1, b1, c1, d1⟩ := ih _ _ _ _ e1
      obtain ⟨a2, b2, c2, d2⟩ := ih _ _ _ _ e2
      obtain ⟨a3, b3, c3, d3⟩ := ih _ _ _ _ e3
      obtain ⟨a4, b4, c4, d4⟩ := ih _ _ _ _ e4
      cases h
      simp only [setCell_nrows, setCell_ncols, setCell_score] at a1 b1 c1
      refine ⟨?_, ?_, ?_, ?_⟩
      · rw [a4, a3, a2, a1]
      · rw [b4, b3, b2, b1]
      · rw [c4, c3, c2, c1]
      · show 0 ≤ 1 + p1.2 + p2.2 + p3.2 + p4.2
        omega
    · rw [bps_pop_miss H fuel s r c t hh] at h
      cases h
      exact ⟨rfl, rfl, rfl, le_refl 0⟩

theorem toNat_mul_nonneg {a b : Int} (ha : 0 ≤ a) (hb : 0 ≤ b) :
    (a * b).toNat = a.toNat * b.toNat := by
  obtain ⟨m, rfl⟩ := Int.eq_ofNat_of_zero_le ha
  obtain ⟨k, rfl⟩ := Int.eq_ofNat_of_zero_le hb
  rw [← Nat.cast_mul]
  simp only [Int.toNat_natCast]

theorem card_grid (s : BPState) : (grid s).card = s.nrows.toNat * s.ncols.toNat := by
  simp [grid, Finset.card_product, Int.card_Ico]

theorem card_cellsOf_le {s : BPState} (hw : wfState s) (t : Int) :
    (cellsOf s t).card ≤ s.board.length := by
  obtain ⟨h1, h2, h3⟩ := hw
  have : (cellsOf s t).card ≤ (grid s).card := Finset.card_filter_le _ _
  rw [card_grid] at this
  rw [h3, toNat_mul_nonneg h1 h2]
  exact this

/-- The flood fill, seen from outside: it clears the cells connected to `(r, c)` through
cells holding `t`, changes nothing else, and returns how many cells that is. -/
theorem bps_pop_cluster (H : Header) {t : Int} (ht : t ≠ H.None) (fuel : Nat) (s : BPState)
    (r c : Int) (hw : wfState s) (hf : (cellsOf s t).card < fuel) :
    ∃ s1 n, bps_pop H fuel s r c t = some (s1, n) ∧ wfState s1 ∧
      (∀ x, Conn s t (r, c) x → cellAt s1 x = H.None) ∧
      (∀ x, ¬ Conn s t (r, c) x → cellAt s1 x = cellAt s x) ∧
      n = (Set.ncard {x | Conn s t (r, c) x} : Int) := by
  obtain ⟨s1, n, e, f, hrc, -⟩ := bps_pop_flood H ht fuel s r c hw hf
  have hin : ∀ x : Cell, inRange s1 x.1 x.2 ↔ inRange s x.1 x.2 := fun x => by
    unfold inRange; rw [f.nrows, f.ncols]
  -- the cleared cells are the connected ones
  have key : ∀ x, Conn s t (r, c) x ↔ holds s t x ∧ ¬ holds s1 t x := by
    intro x
    constructor
    · intro hc
      induction hc with
      | refl h => exact ⟨h, hrc⟩
      | step _ ha hz ih => exact ⟨hz, f.closed _ _ ih.1 ih.2 ha⟩
    · rintro ⟨h1, h2⟩
      rcases f.frame x with e1 | ⟨_, _, h3⟩
      · exact absurd ⟨(hin x).mpr h1.1, e1.trans h1.2⟩ h2
      · exact h3
  refine ⟨s1, n, e, f.wf, ?_, ?_, ?_⟩
  · intro x hx
    obtain ⟨h1, h2⟩ := (key x).mp hx
    rcases f.frame x with e1 | ⟨_, e1, _⟩
    · exact absurd ⟨(hin x).mpr h1.1, e1.trans h1.2⟩ h2
    · exact e1
  · intro x hx
    rcases f.frame x with e1 | ⟨_, _, h3⟩
    · exact e1
    · exact absurd h3 hx
  · have hset : {x | Conn s t (r, c) x} = ((cellsOf s t \ cellsOf s1 t : Finset Cell) : Set Cell) := by
      ext x
      simp only [Set.mem_setOf_eq, Finset.coe_sdiff, Set.mem_diff, Finset.mem_coe, mem_cellsOf]
      exact key x
    have hsub : cellsOf s1 t ⊆ cellsOf s t := fun x hx =>
      (mem_cellsOf s t x).mpr (f.holds_mono x ((mem_cellsOf s1 t x).mp hx))
    rw [hset, Set.ncard_coe_Finset, Finset.card_sdiff hsub]
    have h1 := f.count
    have h2 := Finset.card_le_card hsub
    omega

/-- Copying a well-formed snapshot whose dimensions are within the maxima gives it back. -/
theorem bps_copy_wf (H : Header) {s : BPState} (hw : wfState s) (hd : validDims H s) :
    bps_copy H (some s) = some s := by
  obtain ⟨h1, h2, h3⟩ := hw
  obtain ⟨d1, d2⟩ := hd
  have hc : ¬ (s.nrows < 0 ∨ s.nrows > H.MAX_ROWS ∨ s.ncols < 0 ∨ s.ncols > H.MAX_COLS) := by
    omega
  simp only [bps_copy, bps_create, if_neg hc, memcpy]
  rw [← h3, List.take_length, List.drop_eq_nil_of_le (by simp [h3]), List.append_nil]

/-- A snapshot whose dimensions exceed the maxima cannot be copied. -/
theorem bps_copy_invalid (H : Header) {s : BPState} (hw : wfState s) (hd : ¬ validDims H s) :
    bps_copy H (some s) = none := by
  obtain ⟨h1, h2, h3⟩ := hw
  have hc : s.nrows < 0 ∨ s.nrows > H.MAX_ROWS ∨ s.ncols < 0 ∨ s.ncols > H.MAX_COLS := by
    unfold validDims at hd
    by_contra hn
    exact hd (by omega)
  simp only [bps_copy, bps_create, if_pos hc]

/-- A copy has the dimensions of the original. -/
theorem bps_copy_dims (H : Header) {s : Option BPState} {cp : BPState}
    (h : bps_copy H s = some cp) :
    ∃ src, s = some src ∧ cp.nrows = src.nrows ∧ cp.ncols = src.ncols ∧ cp.score = src.score := by
  cases s with
  | none => simp [bps_copy] at h
  | some src =>
    refine ⟨src, rfl, ?_⟩
    by_cases hc : src.nrows < 0 ∨ src.nrows > H.MAX_ROWS ∨ src.ncols < 0 ∨ src.ncols > H.MAX_COLS
    · simp [bps_copy, bps_create, if_pos hc] at h
    · simp only [bps_copy, bps_create, if_neg hc, Option.some.injEq] at h
      subst h
      exact ⟨rfl, rfl, rfl⟩

theorem bps_copy_eq_of_wf (H : Header) {s cp : BPState} (hw : wfState s)
    (h : bps_copy H (some s) = some cp) : cp = s ∧ validDims H s := by
  by_cases hd : validDims H s
  · rw [bps_copy_wf H hw hd] at h
    exact ⟨(Option.some.inj h).symm, hd⟩
  · rw [bps_copy_invalid H hw hd] at h
    cases h

/-- The two ways `bp_pop` can return: unchanged with 0, or with a pushed snapshot and the
count `n ≥ 2` of the flood fill on the copy. -/
theorem bp_pop_cases (H : Header) (fuel : Nat) (b b1 : BPGame) (r c n : Int)
    (h : bp_pop H fuel b r c = some (b1, n)) :
    (b1 = b ∧ n = 0) ∨
      ∃ cp popped, bps_get b.current.head? r c ≠ H.None ∧
        bps_copy H b.current.head? = some cp ∧
        bps_pop H fuel cp r c (bps_get (some cp) r c) = some (popped, n) ∧ 2 ≤ n ∧
        b1 = { current :=
          { popped with score := wrapInt (popped.score + wrapInt (n * (n - 1))) } :: b.current } := by
  unfold bp_pop at h
  split at h
  · left; cases h; exact ⟨rfl, rfl⟩
  · next hne =>
    split at h
    · left; cases h; exact ⟨rfl, rfl⟩
    · next cp hcp =>
      split at h
      · cases h
      · next popped m hpop =>
        split at h
        · left; cases h; exact ⟨rfl, rfl⟩
        · next hm =>
          right
          cases h
          exact ⟨cp, popped, hne, hcp, hpop, by omega, rfl⟩

theorem wrapInt_add_wrapInt (x m : Int) : wrapInt (x + wrapInt m) = wrapInt (x + m) := by
  unfold wrapInt; omega

theorem wrapInt_of_fits {x : Int} (h1 : -2147483648 ≤ x) (h2 : x ≤ 2147483647) :
    wrapInt x = x := by
  unfold wrapInt; omega

theorem mem_cluster_self {s : BPState} {r c : Int} (hr : inRange s r c) :
    (r, c) ∈ cluster s r c :=
  Conn.refl ⟨hr, rfl⟩

theorem cluster_subset_cellsOf (s : BPState) (r c : Int) :
    cluster s r c ⊆ ((cellsOf s (bps_get (some s) r c) : Finset Cell) : Set Cell) :=
  fun x hx => (mem_cellsOf s _ x).mpr (Conn.holds_right hx)

theorem cluster_finite (s : BPState) (r c : Int) : (cluster s r c).Finite :=
  Set.Finite.subset (Finset.finite_toSet _) (cluster_subset_cellsOf s r c)

theorem one_le_ncard_cluster {s : BPState} {r c : Int} (hr : inRange s r c) :
    1 ≤ (cluster s r c).ncard :=
  Nat.succ_le_of_lt ((Set.ncard_pos (cluster_finite s r c)).mpr ⟨_, mem_cluster_self hr⟩)

/-- The result of `bp_pop` on a well-formed current snapshot, for a balloon cell and enough
fuel: the popped snapshot and the size of the cluster. -/
theorem bp_pop_run (H : Header) (fuel : Nat) (cur : BPState) (rest : List BPState) (r c : Int)
    (hw : wfState cur) (hd : validDims H cur)
    (hne : bps_get (some cur) r c ≠ H.None) (hf : cur.board.length < fuel) :
    ∃ popped n, bps_pop H fuel cur r c (bps_get (some cur) r c) = some (popped, n) ∧
      wfState popped ∧
      (∀ x, x ∈ cluster cur r c → cellAt popped x = H.None) ∧
      (∀ x, x ∉ cluster cur r c → cellAt popped x = cellAt cur x) ∧
      n = ((cluster cur r c).ncard : Int) ∧
      bp_pop H fuel { current := cur :: rest } r c =
        some (if n < 2 then { current := cur :: rest } else
          { current := { popped with score := wrapInt (popped.score + wrapInt (n * (n - 1))) }
              :: cur :: rest }, if n < 2 then 0 else n) := by
  have hcard := lt_of_le_of_lt (card_cellsOf_le hw (bps_get (some cur) r c)) hf
  obtain ⟨popped, n, e, hwp, h1, h2, h3⟩ := bps_pop_cluster H hne fuel cur r c hw hcard
  refine ⟨popped, n, e, hwp, h1, h2, h3, ?_⟩
  unfold bp_pop
  simp only [List.head?_cons]
  rw [if_neg hne, bps_copy_wf H hw hd]
  simp only [e]
  split <;> rfl

/-! ## Popping -/

/-- C1: on a well-formed current board within the maxima, for an in-range cell `(r, c)` that
holds a balloon, and `k` the size of the cluster of `(r, c)` (the maximal 4-connected set of
cells holding that token): `bp_pop` returns, `k ≥ 1`, the value returned is `k` when
`k ≥ 2` and `0` when `k = 1`. -/
theorem bp_pop_returns_cluster_size (H : Header) (fuel : Nat) (cur : BPState)
    (rest : List BPState) (r c : Int) (hw : wfState cur) (hd : validDims H cur)
    (hr : inRange cur r c) (hne : bps_get (some cur) r c ≠ H.None)
    (hf : cur.board.length < fuel) :
    ∃ b1 n, bp_pop H fuel { current := cur :: rest } r c = some (b1, n) ∧
      1 ≤ (cluster cur r c).ncard ∧
      (2 ≤ (cluster cur r c).ncard → n = ((cluster cur r c).ncard : Int)) ∧
      ((cluster cur r c).ncard = 1 → n = 0) := by
  obtain ⟨popped, n, -, -, -, -, hn, e⟩ := bp_pop_run H fuel cur rest r c hw hd hne hf
  refine ⟨_, _, e, one_le_ncard_cluster hr, ?_, ?_⟩
  · intro h2
    have : ¬ n < 2 := by rw [hn]; omega
    rw [if_neg this, hn]
  · intro h1
    have : n < 2 := by rw [hn, h1]; norm_num
    rw [if_pos this]

theorem bp_pop_returns_cluster_size_witness :
    wfState pairBoard ∧ validDims stdHeader pairBoard ∧ inRange pairBoard 0 0 ∧
      bps_get (some pairBoard) 0 0 ≠ stdHeader.None ∧ pairBoard.board.length < 3 ∧
      ∃ b1 n, bp_pop stdHeader 3 { current := [pairBoard] } 0 0 = some (b1, n) ∧
        1 ≤ (cluster pairBoard 0 0).ncard ∧
        (2 ≤ (cluster pairBoard 0 0).ncard → n = ((cluster pairBoard 0 0).ncard : Int)) ∧
        ((cluster pairBoard 0 0).ncard = 1 → n = 0) :=
  ⟨by decide, by decide, by decide, by decide, by decide,
    bp_pop_returns_cluster_size stdHeader 3 pairBoard [] 0 0 (by decide) (by decide)
      (by decide) (by decide) (by decide)⟩

/-- C2: when `bp_pop` at `(r, c)` returns `n ≥ 2` on a well-formed current board, the new
current snapshot has the same dimensions, sits on top of the untouched old chain, reads
`None` at every cell of the cluster of `(r, c)` and the old value at every other cell, and
`n` is the number of cells whose value changed. -/
theorem bp_pop_clears_cluster (H : Header) (fuel : Nat) (cur : BPState) (rest : List BPState)
    (r c : Int) (b1 : BPGame) (n : Int) (hw : wfState cur)
    (h : bp_pop H fuel { current := cur :: rest } r c = some (b1, n)) (h2 : 2 ≤ n) :
    (∃ nw, b1.current = nw :: cur :: rest ∧ nw.nrows = cur.nrows ∧ nw.ncols = cur.ncols) ∧
      (∀ x : Cell, x ∈ cluster cur r c → bp_get_balloon b1 x.1 x.2 = H.None) ∧
      (∀ x : Cell, x ∉ cluster cur r c →
        bp_get_balloon b1 x.1 x.2 = bp_get_balloon { current := cur :: rest } x.1 x.2) ∧
      n = (Set.ncard {x : Cell | bp_get_balloon b1 x.1 x.2 ≠
            bp_get_balloon { current := cur :: rest } x.1 x.2} : Int) := by
  rcases bp_pop_cases H fuel _ b1 r c n h with ⟨-, h0⟩ | ⟨cp, popped, hne, hcp, hpop, -, hb⟩
  · omega
  · simp only [List.head?_cons] at hne hcp
    obtain ⟨rfl, hd⟩ := bps_copy_eq_of_wf H hw hcp
    -- rerun with enough fuel and compare
    have hf : cp.board.length < max fuel (cp.board.length + 1) := by omega
    obtain ⟨popped1, n1, e1, -, g1, g2, g3, -⟩ :=
      bp_pop_run H (max fuel (cp.board.length + 1)) cp rest r c hw hd hne hf
    have e2 := bps_pop_fuel_mono H _ (le_max_left fuel (cp.board.length + 1)) hpop
    rw [e1] at e2
    obtain ⟨rfl, rfl⟩ := Prod.mk.inj (Option.some.inj e2)
    obtain ⟨k1, k2, -, -⟩ := bps_pop_keeps H _ _ _ _ _ _ hpop
    have hget : ∀ x : Cell, bp_get_balloon b1 x.1 x.2 = cellAt popped1 x := by
      intro x; rw [hb]; rfl
    have hold : ∀ x : Cell, bp_get_balloon { current := cp :: rest } x.1 x.2 = cellAt cp x :=
      fun x => rfl
    refine ⟨⟨{ popped1 with score := wrapInt (popped1.score + wrapInt (n1 * (n1 - 1))) },
      by rw [hb], k1, k2⟩, fun x hx => (hget x).trans (g1 x hx),
      fun x hx => (hget x).trans ((g2 x hx).trans (hold x).symm), ?_⟩
    rw [g3]
    congr 2
    ext x
    simp only [Set.mem_setOf_eq, hget, hold]
    constructor
    · intro hx
      rw [g1 x hx, Conn.holds_right hx |>.2]
      exact fun e => hne e.symm
    · intro hx
      by_contra hc
      exact hx (g2 x hc)

theorem bp_pop_clears_cluster_witness :
    wfState pairBoard ∧
      bp_pop stdHeader 3 { current := [pairBoard] } 0 0 =
        some ({ current := [pairPopped, pairBoard] }, 2) ∧ (2 : Int) ≤ 2 ∧
      ((∃ nw, ({ current := [pairPopped, pairBoard] } : BPGame).current = nw :: pairBoard :: [] ∧
          nw.nrows = pairBoard.nrows ∧ nw.ncols = pairBoard.ncols) ∧
        (∀ x : Cell, x ∈ cluster pairBoard 0 0 →
          bp_get_balloon { current := [pairPopped, pairBoard] } x.1 x.2 = stdHeader.None) ∧
        (∀ x : Cell, x ∉ cluster pairBoard 0 0 →
          bp_get_balloon { current := [pairPopped, pairBoard] } x.1 x.2 =
            bp_get_balloon { current := [pairBoard] } x.1 x.2) ∧
        (2 : Int) = (Set.ncard {x : Cell |
            bp_get_balloon { current := [pairPopped, pairBoard] } x.1 x.2 ≠
              bp_get_balloon { current := [pairBoard] } x.1 x.2} : Int)) :=
  ⟨by decide, by decide, by decide,
    bp_pop_clears_cluster stdHeader 3 pairBoard [] 0 0
      { current := [pairPopped, pairBoard] } 2 (by decide) (by decide) (by decide)⟩

/-- C3: when `bp_pop` returns `n ≥ 2`, `bp_score` after the call is the old `bp_score` plus
`n * (n - 1)`, computed in the 32-bit `int` that holds the score; so it is the old score
plus exactly `n * (n - 1)` whenever that sum is a value of an `int`. -/
theorem bp_pop_score (H : Header) (fuel : Nat) (b b1 : BPGame) (r c n v : Int)
    (h : bp_pop H fuel b r c = some (b1, n)) (h2 : 2 ≤ n) (hv : bp_score b = some v) :
    bp_score b1 = some (wrapInt (v + n * (n - 1))) ∧
      (-2147483648 ≤ v + n * (n - 1) → v + n * (n - 1) ≤ 2147483647 →
        bp_score b1 = some (v + n * (n - 1))) := by
  have key : bp_score b1 = some (wrapInt (v + n * (n - 1))) := by
    rcases bp_pop_cases H fuel b b1 r c n h with ⟨-, h0⟩ | ⟨cp, popped, -, hcp, hpop, -, hb⟩
    · omega
    · obtain ⟨src, hsrc, -, -, hs⟩ := bps_copy_dims H hcp
      obtain ⟨-, -, k3, -⟩ := bps_pop_keeps H _ _ _ _ _ _ hpop
      have hsc : src.score = v := by
        cases hcur : b.current with
        | nil => rw [hcur] at hsrc; cases hsrc
        | cons x xs =>
          rw [hcur] at hsrc
          simp only [bp_score, hcur, Option.some.injEq] at hv
          simp only [List.head?_cons, Option.some.injEq] at hsrc
          rw [← hsrc]; exact hv
      rw [hb]
      simp only [bp_score]
      rw [wrapInt_add_wrapInt, k3, hs, hsc]
  exact ⟨key, fun hlo hhi => by rw [key, wrapInt_of_fits hlo hhi]⟩

theorem bp_pop_score_witness :
    bp_pop stdHeader 3 { current := [pairBoard] } 0 0 =
        some ({ current := [pairPopped, pairBoard] }, 2) ∧ (2 : Int) ≤ 2 ∧
      bp_score { current := [pairBoard] } = some 0 ∧
      (bp_score { current := [pairPopped, pairBoard] } = some (wrapInt (0 + 2 * (2 - 1))) ∧
        ((-2147483648 : Int) ≤ 0 + 2 * (2 - 1) → (0 : Int) + 2 * (2 - 1) ≤ 2147483647 →
          bp_score { current := [pairPopped, pairBoard] } = some (0 + 2 * (2 - 1)))) :=
  ⟨by decide, by decide, by decide,
    bp_pop_score stdHeader 3 { current := [pairBoard] } { current := [pairPopped, pairBoard] }
      0 0 2 0 (by decide) (by decide) (by decide)⟩

/-- `bp_pop` at a position outside the board returns 0 and changes nothing. -/
theorem bp_pop_out_of_range (H : Header) (fuel : Nat) (b : BPGame) (r c : Int)
    (hfuel : 0 < fuel) (hout : ∀ cur, b.current.head? = some cur → ¬ inRange cur r c) :
    bp_pop H fuel b r c = some (b, 0) := by
  obtain ⟨f, rfl⟩ : ∃ f, fuel = f + 1 := ⟨fuel - 1, by omega⟩
  unfold bp_pop
  split
  · rfl
  · cases hcp : bps_copy H b.current.head? with
    | none => rfl
    | some cp =>
      obtain ⟨src, hsrc, d1, d2, -⟩ := bps_copy_dims H hcp
      have hno : ¬ holds cp (bps_get (some cp) r c) (r, c) := by
        intro hh
        apply hout src hsrc
        have := hh.1
        unfold inRange at this ⊢
        rw [d1, d2] at this
        exact this
      simp only [bps_pop_miss H f cp r c _ hno]
      rfl

/-- C4: `bp_pop` is all-or-nothing.  With at least one unit of fuel, for every session and
every `(r, c)`: it returns 0 with the session unchanged when the addressed cell reads
`None`, when `(r, c)` is out of range, and when the cluster of `(r, c)` has one cell; it
returns whenever the fuel exceeds the number of cells of a well-formed current board; and
whatever it returns is never 1, and a return of 0 leaves the whole session (grid, score and
undo chain) as it was. -/
theorem bp_pop_all_or_nothing (H : Header) (fuel : Nat) (b : BPGame) (r c : Int)
    (hfuel : 0 < fuel) :
    (bps_get b.current.head? r c = H.None → bp_pop H fuel b r c = some (b, 0)) ∧
      ((∀ cur, b.current.head? = some cur → ¬ inRange cur r c) →
        bp_pop H fuel b r c = some (b, 0)) ∧
      (∀ cur, b.current.head? = some cur → wfState cur → cur.board.length < fuel →
        inRange cur r c → (cluster cur r c).ncard = 1 → bp_pop H fuel b r c = some (b, 0)) ∧
      ((∀ cur, b.current.head? = some cur → wfState cur ∧ cur.board.length < fuel) →
        ∃ b1 n, bp_pop H fuel b r c = some (b1, n)) ∧
      (∀ b1 n, bp_pop H fuel b r c = some (b1, n) → n ≠ 1 ∧ (n = 0 → b1 = b)) := by
  have hnone : bps_get b.current.head? r c = H.None → bp_pop H fuel b r c = some (b, 0) := by
    intro h; unfold bp_pop; rw [if_pos h]
  have hrun : ∀ cur, b.current.head? = some cur → wfState cur → cur.board.length < fuel →
      ∃ b1 n, bp_pop H fuel b r c = some (b1, n) ∧
        ((cluster cur r c).ncard = 1 → b1 = b ∧ n = 0) := by
    intro cur hcur hw hf
    obtain ⟨bc⟩ := b
    cases bc with
    | nil => cases hcur
    | cons x rest =>
      simp only [List.head?_cons, Option.some.injEq] at hcur
      subst hcur
      by_cases hne : bps_get (some x) r c = H.None
      · exact ⟨_, _, hnone hne, fun _ => ⟨rfl, rfl⟩⟩
      · by_cases hd : validDims H x
        · obtain ⟨popped, n, -, -, -, -, hn, e⟩ := bp_pop_run H fuel x rest r c hw hd hne hf
          refine ⟨_, _, e, fun h1 => ?_⟩
          have : n < 2 := by rw [hn, h1]; norm_num
          simp only [if_pos this, and_self]
        · refine ⟨{ current := x :: rest }, 0, ?_, fun _ => ⟨rfl, rfl⟩⟩
          unfold bp_pop
          simp only [List.head?_cons]
          rw [if_neg hne, bps_copy_invalid H hw hd]
  refine ⟨hnone, bp_pop_out_of_range H fuel b r c hfuel, ?_, ?_, ?_⟩
  · intro cur hcur hw hf _ h1
    obtain ⟨b1, n, e, h⟩ := hrun cur hcur hw hf
    obtain ⟨rfl, rfl⟩ := h h1
    exact e
  · intro hall
    cases hcur : b.current.head? with
    | none =>
      exact ⟨b, 0, bp_pop_out_of_range H fuel b r c hfuel
        (fun cur hc => by rw [hcur] at hc; cases hc)⟩
    | some cur =>
      obtain ⟨hw, hf⟩ := hall cur hcur
      obtain ⟨b1, n, e, -⟩ := hrun cur hcur hw hf
      exact ⟨b1, n, e⟩
  · intro b1 n h
    rcases bp_pop_cases H fuel b b1 r c n h with ⟨h1, h0⟩ | ⟨_, _, _, _, _, h2, _⟩
    · exact ⟨by omega, fun _ => h1⟩
    · exact ⟨by omega, fun h0 => by omega⟩

theorem bp_pop_all_or_nothing_witness :
    0 < 3 ∧
      ((bps_get ({ current := [pairPopped, pairBoard] } : BPGame).current.head? 0 0 =
          stdHeader.None →
        bp_pop stdHeader 3 { current := [pairPopped, pairBoard] } 0 0 =
          some ({ current := [pairPopped, pairBoard] }, 0)) ∧
      ((∀ cur, ({ current := [pairPopped, pairBoard] } : BPGame).current.head? = some cur →
          ¬ inRange cur 0 0) →
        bp_pop stdHeader 3 { current := [pairPopped, pairBoard] } 0 0 =
          some ({ current := [pairPopped, pairBoard] }, 0)) ∧
      (∀ cur, ({ current := [pairPopped, pairBoard] } : BPGame).current.head? = some cur →
        wfState cur → cur.board.length < 3 → inRange cur 0 0 → (cluster cur 0 0).ncard = 1 →
        bp_pop stdHeader 3 { current := [pairPopped, pairBoard] } 0 0 =
          some ({ current := [pairPopped, pairBoard] }, 0)) ∧
      ((∀ cur, ({ current := [pairPopped, pairBoard] } : BPGame).current.head? = some cur →
          wfState cur ∧ cur.board.length < 3) →
        ∃ b1 n, bp_pop stdHeader 3 { current := [pairPopped, pairBoard] } 0 0 = some (b1, n)) ∧
      (∀ b1 n, bp_pop stdHeader 3 { current := [pairPopped, pairBoard] } 0 0 = some (b1, n) →
        n ≠ 1 ∧ (n = 0 → b1 = { current := [pairPopped, pairBoard] }))) :=
  ⟨by decide, bp_pop_all_or_nothing stdHeader 3 { current := [pairPopped, pairBoard] } 0 0
    (by decide)⟩

/-! ## Undo -/

/-- C5: when `bp_pop` returns a non-zero value, an immediately following `bp_undo` returns 1
and the session is exactly the one before the pop (current grid, score and the rest of the
undo chain). -/
theorem bp_undo_after_pop (H : Header) (fuel : Nat) (b b1 : BPGame) (r c n : Int)
    (h : bp_pop H fuel b r c = some (b1, n)) (hn : n ≠ 0) : bp_undo b1 = some (b, 1) := by
  rcases bp_pop_cases H fuel b b1 r c n h with ⟨-, h0⟩ | ⟨cp, popped, -, hcp, -, -, hb⟩
  · exact absurd h0 hn
  · obtain ⟨src, hsrc, -⟩ := bps_copy_dims H hcp
    obtain ⟨bc⟩ := b
    cases bc with
    | nil => cases hsrc
    | cons x rest => rw [hb]; rfl

theorem bp_undo_after_pop_witness :
    bp_pop stdHeader 3 { current := [pairBoard] } 0 0 =
        some ({ current := [pairPopped, pairBoard] }, 2) ∧ (2 : Int) ≠ 0 ∧
      bp_undo { current := [pairPopped, pairBoard] } = some ({ current := [pairBoard] }, 1) :=
  ⟨by decide, by decide,
    bp_undo_after_pop stdHeader 3 { current := [pairBoard] }
      { current := [pairPopped, pairBoard] } 0 0 2 (by decide) (by decide)⟩

/-! ## Loops over index ranges -/

theorem intRange_eq_nil {lo hi : Int} (h : hi ≤ lo) : intRange lo hi = [] := by
  unfold intRange
  have : (hi - lo).toNat = 0 := by omega
  rw [this]; rfl

theorem mem_intRange {lo hi i : Int} : i ∈ intRange lo hi ↔ lo ≤ i ∧ i < hi := by
  unfold intRange
  simp only [List.mem_map, List.mem_range]
  constructor
  · rintro ⟨k, hk, rfl⟩
    have : (k : Int) < hi - lo := by omega
    constructor <;> omega
  · rintro ⟨h1, h2⟩
    refine ⟨(i - lo).toNat, by omega, ?_⟩
    have : (((i - lo).toNat : Nat) : Int) = i - lo := Int.toNat_of_nonneg (by omega)
    omega

/-- Loop invariant rule for `for (i = lo; i < hi; i++)`. -/
theorem foldl_intRange_inv {α : Type} (f : α → Int → α) (P : Int → α → Prop) (lo hi : Int)
    (hle : lo ≤ hi) (a : α) (h0 : P lo a)
    (hstep : ∀ i x, lo ≤ i → i < hi → P i x → P (i + 1) (f x i)) :
    P hi ((intRange lo hi).foldl f a) := by
  have key : ∀ n : Nat, lo + (n : Int) ≤ hi →
      P (lo + (n : Int)) (((List.range n).map (fun k : Nat => lo + (k : Int))).foldl f a) := by
    intro n
    induction n with
    | zero => intro _; simpa using h0
    | succ n ih =>
      intro hn
      rw [List.range_succ, List.map_append, List.foldl_append]
      simp only [List.map_cons, List.map_nil, List.foldl_cons, List.foldl_nil]
      have := hstep (lo + (n : Int)) _ (by omega) (by push_cast at hn; omega)
        (ih (by push_cast at hn; omega))
      push_cast
      rw [← add_assoc]
      exact this
  have h := key (hi - lo).toNat (by omega)
  have e : lo + (((hi - lo).toNat : Nat) : Int) = hi := by omega
  rw [e] at h
  unfold intRange
  exact h

/-- A loop whose body keeps a property keeps it. -/
theorem foldl_intRange_keep {α : Type} (f : α → Int → α) (P : α → Prop) (lo hi : Int) (a : α)
    (h0 : P a) (hstep : ∀ i x, lo ≤ i → i < hi → P x → P (f x i)) :
    P ((intRange lo hi).foldl f a) := by
  by_cases hle : lo ≤ hi
  · exact foldl_intRange_inv f (fun _ x => P x) lo hi hle a h0 hstep
  · rw [intRange_eq_nil (by omega)]; exact h0

/-! ## Creation -/

/-- A snapshot of the given dimensions as creation leaves it. -/
theorem bps_create_some (H : Header) {nrows ncols : Int} (h0 : 0 ≤ nrows)
    (h1 : nrows ≤ H.MAX_ROWS) (h2 : 0 ≤ ncols) (h3 : ncols ≤ H.MAX_COLS) :
    ∃ s, bps_create H nrows ncols = some s ∧ wfState s ∧ s.nrows = nrows ∧ s.ncols = ncols ∧
      s.score = 0 := by
  have hc : ¬ (nrows < 0 ∨ nrows > H.MAX_ROWS ∨ ncols < 0 ∨ ncols > H.MAX_COLS) := by omega
  refine ⟨BPState.mk (List.replicate (nrows * ncols).toNat H.None) 0 nrows ncols, by simp only [bps_create, if_neg hc], ⟨h0, h2, ?_⟩, rfl, rfl, rfl⟩
  simp

/-- The random fill keeps the snapshot non-null, well-formed, of the same dimensions and
with score 0. -/
theorem randomFill_good (H : Header) (rnd : Nat → Nat) (s : BPState) (nrows ncols : Int)
    (hw : wfState s) (hs : s.score = 0) :
    ∃ s1, (randomFill H rnd (some s) nrows ncols).1 = some s1 ∧ wfState s1 ∧
      s1.nrows = s.nrows ∧ s1.ncols = s.ncols ∧ s1.score = 0 := by
  unfold randomFill
  apply foldl_intRange_keep _ (fun acc : Option BPState × Nat =>
    ∃ s1, acc.1 = some s1 ∧ wfState s1 ∧ s1.nrows = s.nrows ∧ s1.ncols = s.ncols ∧ s1.score = 0)
  · exact ⟨s, rfl, hw, rfl, rfl, hs⟩
  · intro j acc _ _ hacc
    apply foldl_intRange_keep _ (fun acc : Option BPState × Nat =>
      ∃ s1, acc.1 = some s1 ∧ wfState s1 ∧ s1.nrows = s.nrows ∧ s1.ncols = s.ncols ∧
        s1.score = 0)
    · exact hacc
    · rintro i acc2 _ _ ⟨s1, e, w, a, b, c⟩
      refine ⟨setCell s1 i j ([H.Red, H.Blue, H.Green, H.Yellow].getD (rnd acc2.2 % 4) 0), ?_,
        wfState_setCell w _ _ _, by simpa using a, by simpa using b, by simpa using c⟩
      simp only [e, bps_set_some]

/-- The copy loop of `bp_create_from_mtx` on a well-formed snapshot: every cell ends up with
the value of the matrix; dimensions and score are untouched. -/
theorem copy_mtx_good (mtx : Int → Int → Int) (s : BPState) (hw : wfState s) :
    ∃ s1, (intRange 0 s.nrows).foldl (fun st i =>
        (intRange 0 s.ncols).foldl (fun st2 j => bps_set st2 i j (mtx i j)) st) (some s) = some s1 ∧
      wfState s1 ∧ s1.nrows = s.nrows ∧ s1.ncols = s.ncols ∧ s1.score = s.score ∧
      ∀ r c, inRange s r c → bps_get (some s1) r c = mtx r c := by
  have h := foldl_intRange_inv
    (fun st i => (intRange 0 s.ncols).foldl (fun st2 j => bps_set st2 i j (mtx i j)) st)
    (fun i (st : Option BPState) => ∃ s1, st = some s1 ∧ wfState s1 ∧ s1.nrows = s.nrows ∧
      s1.ncols = s.ncols ∧ s1.score = s.score ∧
      ∀ r c, inRange s r c → r < i → bps_get (some s1) r c = mtx r c)
    0 s.nrows hw.1 (some s) ⟨s, rfl, hw, rfl, rfl, rfl, fun r c hr hlt => absurd hr.1 (by omega)⟩
    (by
      rintro i st hi0 hi1 ⟨s1, rfl, w1, a1, b1, c1, g1⟩
      have h2 := foldl_intRange_inv (fun st2 j => bps_set st2 i j (mtx i j))
        (fun j (st : Option BPState) => ∃ s2, st = some s2 ∧ wfState s2 ∧ s2.nrows = s.nrows ∧
          s2.ncols = s.ncols ∧ s2.score = s.score ∧
          ∀ r c, inRange s r c → (r < i ∨ (r = i ∧ c < j)) → bps_get (some s2) r c = mtx r c)
        0 s.ncols hw.2.1 (some s1)
        ⟨s1, rfl, w1, a1, b1, c1, fun r c hr hlt => by
          rcases hlt with h | ⟨_, h⟩
          · exact g1 r c hr h
          · exact absurd hr.2.2.1 (by omega)⟩
        (by
          rintro j st2 hj0 hj1 ⟨s2, rfl, w2, a2, b2, c2, g2⟩
          have hin : inRange s2 i j := ⟨hi0, by omega, hj0, by omega⟩
          refine ⟨setCell s2 i j (mtx i j), bps_set_some _ _ _ _, wfState_setCell w2 _ _ _,
            by simpa using a2, by simpa using b2, by simpa using c2, ?_⟩
          intro r c hr hlt
          rw [get_setCell w2 hin]
          split
          · next e => rw [e.1, e.2]
          · next e =>
            apply g2 r c hr
            rcases hlt with h | ⟨h3, h4⟩
            · exact Or.inl h
            · refine Or.inr ⟨h3, ?_⟩
              by_contra hc
              exact e ⟨h3, by omega⟩)
      obtain ⟨s2, e2, w2, a2, b2, c2, g2⟩ := h2
      refine ⟨s2, e2, w2, a2, b2, c2, fun r c hr hlt => g2 r c hr ?_⟩
      by_cases h : r < i
      · exact Or.inl h
      · exact Or.inr ⟨by omega, hr.2.2.2⟩)
  obtain ⟨s1, e, w, a, b, c, g⟩ := h
  exact ⟨s1, e, w, a, b, c, fun r c hr => g r c hr hr.2.1⟩

/-- The session `bp_create_from_mtx` builds for dimensions between 0 and the maxima: one
snapshot, no predecessor, score 0, every cell as in the matrix. -/
theorem bp_create_from_mtx_good (H : Header) (rnd : Nat → Nat) (mtx : Int → Int → Int)
    {nrows ncols : Int} (h0 : 0 ≤ nrows) (h1 : nrows ≤ H.MAX_ROWS) (h2 : 0 ≤ ncols)
    (h3 : ncols ≤ H.MAX_COLS) :
    ∃ s, bp_create_from_mtx H rnd mtx nrows ncols = some { current := [s] } ∧ wfState s ∧
      s.nrows = nrows ∧ s.ncols = ncols ∧ s.score = 0 ∧
      ∀ r c, inRange s r c → bps_get (some s) r c = mtx r c := by
  obtain ⟨s0, e0, w0, a0, b0, c0⟩ := bps_create_some H h0 h1 h2 h3
  obtain ⟨s1, e1, w1, a1, b1, c1⟩ := randomFill_good H rnd s0 nrows ncols w0 c0
  obtain ⟨s2, e2, w2, a2, b2, c2, g2⟩ := copy_mtx_good mtx s1 w1
  have hc : ¬ (nrows > H.MAX_ROWS ∨ ncols > H.MAX_COLS) := by omega
  rw [a1, a0, b1, b0] at e2
  refine ⟨s2, ?_, w2, by rw [a2, a1, a0], by rw [b2, b1, b0], by rw [c2, c1], ?_⟩
  · simp only [bp_create_from_mtx, bp_create, if_neg hc, e0, e1, Option.toList, List.head?_cons,
      List.tail_cons, e2, List.append_nil]
  · intro r c hr
    apply g2 r c
    unfold inRange at hr ⊢
    rw [a2, b2] at hr
    exact hr

/-- A pop either leaves the session alone or puts one snapshot on top of it. -/
theorem bp_pop_push (H : Header) (fuel : Nat) (b b1 : BPGame) (r c n : Int)
    (h : bp_pop H fuel b r c = some (b1, n)) :
    (n = 0 ∧ b1 = b) ∨ (n ≠ 0 ∧ ∃ x, b1.current = x :: b.current) := by
  rcases bp_pop_cases H fuel b b1 r c n h with ⟨h1, h0⟩ | ⟨_, _, _, _, _, h2, hb⟩
  · exact Or.inl ⟨h0, h1⟩
  · exact Or.inr ⟨by omega, _, by rw [hb]⟩

/-- On a well-formed current board with fuel above its number of cells `bp_pop` returns, and
the current board is again such a board. -/
theorem bp_pop_total (H : Header) (fuel : Nat) (b : BPGame) (r c : Int)
    (hb : ∃ cur rest, b.current = cur :: rest ∧ wfState cur ∧ cur.board.length < fuel) :
    ∃ b1 n, bp_pop H fuel b r c = some (b1, n) ∧
      ∃ cur rest, b1.current = cur :: rest ∧ wfState cur ∧ cur.board.length < fuel := by
  obtain ⟨cur, rest, hcur, hw, hf⟩ := hb
  obtain ⟨bc⟩ := b
  simp only at hcur
  subst hcur
  by_cases hne : bps_get (some cur) r c = H.None
  · refine ⟨_, 0, ?_, cur, rest, rfl, hw, hf⟩
    unfold bp_pop; simp only [List.head?_cons]; rw [if_pos hne]
  · by_cases hd : validDims H cur
    · obtain ⟨popped, n, hpop, hwp, -, -, -, e⟩ := bp_pop_run H fuel cur rest r c hw hd hne hf
      refine ⟨_, _, e, ?_⟩
      by_cases hn : n < 2
      · simp only [if_pos hn]; exact ⟨cur, rest, rfl, hw, hf⟩
      · simp only [if_neg hn]
        obtain ⟨k1, k2, -, -⟩ := bps_pop_keeps H _ _ _ _ _ _ hpop
        refine ⟨_, _, rfl, hwp, ?_⟩
        show popped.board.length < fuel
        rw [hwp.2.2, k1, k2, ← hw.2.2]
        exact hf
    · refine ⟨{ current := cur :: rest }, 0, ?_, cur, rest, rfl, hw, hf⟩
      unfold bp_pop
      simp only [List.head?_cons]
      rw [if_neg hne, bps_copy_invalid H hw hd]

/-- A run of pops returns a value for every call and stacks one snapshot per non-zero
return on top of the chain it started from. -/
theorem popAll_chain (H : Header) (fuel : Nat) (ps : List (Int × Int)) :
    ∀ b : BPGame, (∃ cur rest, b.current = cur :: rest ∧ wfState cur ∧ cur.board.length < fuel) →
      ∃ b1 rets pushed, popAll H fuel b ps = some (b1, rets) ∧ rets.length = ps.length ∧
        b1.current = pushed ++ b.current ∧
        pushed.length = rets.countP (fun n => decide (n ≠ 0)) := by
  induction ps with
  | nil => intro b _; exact ⟨b, [], [], rfl, rfl, rfl, rfl⟩
  | cons p ps ih =>
    intro b hb
    obtain ⟨b1, n, e1, hb1⟩ := bp_pop_total H fuel b p.1 p.2 hb
    obtain ⟨b2, rets, pushed, e2, hl, hc, hk⟩ := ih b1 hb1
    rcases bp_pop_push H fuel b b1 p.1 p.2 n e1 with ⟨h0, hsame⟩ | ⟨hn, x, hx⟩
    · refine ⟨b2, n :: rets, pushed, ?_, by simp [hl], by rw [hc, hsame], ?_⟩
      · simp only [popAll, e1, e2]
      · rw [List.countP_cons_of_neg]
        · exact hk
        · simp [h0]
    · refine ⟨b2, n :: rets, pushed ++ [x], ?_, by simp [hl], ?_, ?_⟩
      · simp only [popAll, e1, e2]
      · rw [hc, hx]; simp
      · rw [List.countP_cons_of_pos]
        · simp [hk]
        · simp [hn]

theorem undoAll_pushed (pushed : List BPState) (x : BPState) (l : List BPState) :
    undoAll pushed.length { current := pushed ++ x :: l } =
      some ({ current := x :: l }, List.replicate pushed.length 1) := by
  induction pushed with
  | nil => rfl
  | cons p ps ih =>
    have hu : bp_undo { current := (p :: ps) ++ x :: l } = some ({ current := ps ++ x :: l }, 1) := by
      cases ps <;> rfl
    simp only [List.length_cons, undoAll, hu, ih, List.replicate_succ]

theorem undoAll_initial (x : BPState) (m : Nat) :
    undoAll m { current := [x] } = some ({ current := [x] }, List.replicate m 0) := by
  induction m with
  | zero => rfl
  | succ m ih =>
    have hu : bp_undo { current := [x] } = some ({ current := [x] }, 0) := rfl
    simp only [undoAll, hu, ih, List.replicate_succ]

theorem undoAll_add (k m : Nat) :
    ∀ (b b1 b2 : BPGame) (vs ws : List Int), undoAll k b = some (b1, vs) →
      undoAll m b1 = some (b2, ws) → undoAll (k + m) b = some (b2, vs ++ ws) := by
  induction k with
  | zero =>
    intro b b1 b2 vs ws h1 h2
    simp only [undoAll, Option.some.injEq, Prod.mk.injEq] at h1
    obtain ⟨rfl, rfl⟩ := h1
    simpa using h2
  | succ k ih =>
    intro b b1 b2 vs ws h1 h2
    rw [Nat.add_right_comm]
    simp only [undoAll] at h1 ⊢
    cases hu : bp_undo b with
    | none => rw [hu] at h1; cases h1
    | some q =>
      obtain ⟨b3, v⟩ := q
      rw [hu] at h1
      simp only at h1 ⊢
      cases hr : undoAll k b3 with
      | none => rw [hr] at h1; cases h1
      | some q2 =>
        obtain ⟨b4, us⟩ := q2
        rw [hr] at h1
        simp only [Option.some.injEq, Prod.mk.injEq] at h1
        obtain ⟨rfl, rfl⟩ := h1
        rw [ih b3 b4 b2 us ws hr h2]
        rfl

/-- C6: let `b0` be the session `bp_create_from_mtx` returns for non-negative dimensions, and
let the fuel exceed the number of cells.  Any sequence of `bp_pop` calls returns a value for
each call; with `k` the number of non-zero returns, the next `k` calls of `bp_undo` return 1
each and lead back to `b0`, every further `bp_undo` returns 0 and leaves `b0` as it is; and
`b0` has score 0 and reads the matrix at every in-range cell. -/
theorem bp_undo_back_to_start (H : Header) (rnd : Nat → Nat) (mtx : Int → Int → Int)
    (nrows ncols : Int) (fuel : Nat) (ps : List (Int × Int)) (b0 : BPGame)
    (h0 : 0 ≤ nrows) (h2 : 0 ≤ ncols)
    (hc : bp_create_from_mtx H rnd mtx nrows ncols = some b0)
    (hf : (nrows * ncols).toNat < fuel) :
    (∃ b rets, popAll H fuel b0 ps = some (b, rets) ∧ rets.length = ps.length ∧
      ∀ m, undoAll (rets.countP (fun n => decide (n ≠ 0)) + m) b =
        some (b0, List.replicate (rets.countP (fun n => decide (n ≠ 0))) 1 ++
          List.replicate m 0)) ∧
      bp_undo b0 = some (b0, 0) ∧ bp_score b0 = some 0 ∧
      ∀ r c, 0 ≤ r → r < nrows → 0 ≤ c → c < ncols → bp_get_balloon b0 r c = mtx r c := by
  have h1 : nrows ≤ H.MAX_ROWS ∧ ncols ≤ H.MAX_COLS := by
    by_contra hcon
    have : nrows > H.MAX_ROWS ∨ ncols > H.MAX_COLS := by omega
    simp [bp_create_from_mtx, bp_create, if_pos this] at hc
  obtain ⟨s, e, hw, a, b, sc, g⟩ := bp_create_from_mtx_good H rnd mtx h0 h1.1 h2 h1.2
  rw [e] at hc
  obtain rfl := Option.some.inj hc
  have hlen : s.board.length < fuel := by rw [hw.2.2, a, b]; exact hf
  refine ⟨?_, rfl, by simp only [bp_score, sc], ?_⟩
  · obtain ⟨b1, rets, pushed, hp, hl, hch, hk⟩ :=
      popAll_chain H fuel ps { current := [s] } ⟨s, [], rfl, hw, hlen⟩
    refine ⟨b1, rets, hp, hl, fun m => ?_⟩
    rw [← hk]
    obtain ⟨c1⟩ := b1
    simp only at hch
    subst hch
    exact undoAll_add _ _ _ _ _ _ _ (undoAll_pushed pushed s []) (undoAll_initial s m)
  · intro r c r0 r1 c0 c1
    exact g r c ⟨r0, by omega, c0, by omega⟩

theorem bp_undo_back_to_start_witness :
    (0 : Int) ≤ 1 ∧ (0 : Int) ≤ 2 ∧
      bp_create_from_mtx stdHeader (fun k => k) (fun _ _ => 94) 1 2 =
        some { current := [pairBoard] } ∧
      ((1 : Int) * 2).toNat < 3 ∧
      ((∃ b rets, popAll stdHeader 3 { current := [pairBoard] } [(0, 0), (0, 1)] = some (b, rets) ∧
          rets.length = [((0 : Int), (0 : Int)), (0, 1)].length ∧
          ∀ m, undoAll (rets.countP (fun n => decide (n ≠ 0)) + m) b =
            some ({ current := [pairBoard] },
              List.replicate (rets.countP (fun n => decide (n ≠ 0))) 1 ++ List.replicate m 0)) ∧
        bp_undo { current := [pairBoard] } = some ({ current := [pairBoard] }, 0) ∧
        bp_score { current := [pairBoard] } = some 0 ∧
        ∀ r c, 0 ≤ r → r < 1 → 0 ≤ c → c < 2 →
          bp_get_balloon { current := [pairBoard] } r c = (fun _ _ => 94) r c) :=
  ⟨by decide, by decide, by decide, by decide,
    bp_undo_back_to_start stdHeader (fun k => k) (fun _ _ => 94) 1 2 3 [(0, 0), (0, 1)]
      { current := [pairBoard] } (by decide) (by decide) (by decide) (by decide)⟩

/-! ## Can-pop -/

/-- C7 (evaluation of the code): on the 2 by 2 board `^ =` over `o o` the two cells of the
last row are 4-adjacent balloons of the same colour and `bp_pop` at `(1, 0)` pops both, yet
`bp_can_pop` returns 0: its scan never takes a cell of the last row (or of the last column)
as the cell whose right and lower neighbours it compares. -/
theorem bp_can_pop_misses_last_row :
    bp_can_pop stdHeader { current := [lastRowPair] } = some 0 ∧
      bp_get_balloon { current := [lastRowPair] } 1 0 =
        bp_get_balloon { current := [lastRowPair] } 1 1 ∧
      bp_get_balloon { current := [lastRowPair] } 1 0 ≠ stdHeader.None ∧
      (bp_pop stdHeader 5 { current := [lastRowPair] } 1 0).map Prod.snd = some 2 := by
  decide

/-! ## Compactness -/

theorem floats_iff (H : Header) (s : BPState) (i j : Int) :
    floats H s i j = true ↔
      bps_get (some s) i j ≠ H.None ∧ bps_get (some s) (i - 1) j = H.None := by
  simp [floats]

/-- The scan of `bp_is_compact` finds nothing exactly when every balloon below row 0 has a
balloon right above it. -/
theorem bp_is_compact_direct (H : Header) (cur : BPState) (rest : List BPState) :
    bp_is_compact H { current := cur :: rest } = some 1 ↔
      ∀ i j, inRange cur i j → 1 ≤ i → bps_get (some cur) i j ≠ H.None →
        bps_get (some cur) (i - 1) j ≠ H.None := by
  simp only [bp_is_compact]
  constructor
  · intro h i j hr hi hne habove
    split at h
    · cases h
    · next hany =>
      apply hany
      simp only [List.any_eq_true, mem_intRange]
      exact ⟨i, ⟨hi, hr.2.1⟩, j, ⟨hr.2.2.1, hr.2.2.2⟩, (floats_iff H cur i j).mpr ⟨hne, habove⟩⟩
  · intro h
    split
    · next hany =>
      exfalso
      simp only [List.any_eq_true, mem_intRange] at hany
      obtain ⟨i, ⟨hi1, hi2⟩, j, ⟨hj1, hj2⟩, hfl⟩ := hany
      obtain ⟨h1, h2⟩ := (floats_iff H cur i j).mp hfl
      exact h i j ⟨by omega, hi2, hj1, hj2⟩ hi1 h1 h2
    · rfl

theorem bp_is_compact_values (H : Header) (cur : BPState) (rest : List BPState) :
    bp_is_compact H { current := cur :: rest } = some 1 ∨
      bp_is_compact H { current := cur :: rest } = some 0 := by
  simp only [bp_is_compact]
  split
  · exact Or.inr rfl
  · exact Or.inl rfl

/-- Having a balloon right above every balloon is the same as having balloons all the way up
above every balloon. -/
theorem direct_iff_all_above (H : Header) (cur : BPState) :
    (∀ i j, inRange cur i j → 1 ≤ i → bps_get (some cur) i j ≠ H.None →
        bps_get (some cur) (i - 1) j ≠ H.None) ↔
      ∀ i j, inRange cur i j → bps_get (some cur) i j ≠ H.None →
        ∀ k, 0 ≤ k → k < i → bps_get (some cur) k j ≠ H.None := by
  constructor
  · intro h i j hr hne
    have key : ∀ n : Nat, (n : Int) ≤ i → bps_get (some cur) (i - n) j ≠ H.None := by
      intro n
      induction n with
      | zero => intro _; simpa using hne
      | succ n ih =>
        intro hn
        push_cast at hn
        have h1 := ih (by omega)
        have h2 := h (i - n) j ⟨by omega, by have := hr.2.1; omega, hr.2.2.1, hr.2.2.2⟩
          (by omega) h1
        have e : i - ((n + 1 : Nat) : Int) = i - n - 1 := by push_cast; ring
        rw [e]
        exact h2
    intro k hk0 hki
    have := key (i - k).toNat (by omega)
    have e : i - (((i - k).toNat : Nat) : Int) = k := by omega
    rw [e] at this
    exact this
  · intro h i j hr hi hne
    exact h i j hr hne (i - 1) (by omega) (by omega)

/-- C8: `bp_is_compact` returns 1 if and only if every balloon is as high as possible, that
is, for every in-range cell `(i, j)` holding a balloon all cells `(k, j)` with `0 ≤ k < i`
hold balloons; and it returns 0 otherwise. -/
theorem bp_is_compact_iff_all_above (H : Header) (cur : BPState) (rest : List BPState) :
    (bp_is_compact H { current := cur :: rest } = some 1 ↔
        ∀ i j, inRange cur i j → bps_get (some cur) i j ≠ H.None →
          ∀ k, 0 ≤ k → k < i → bps_get (some cur) k j ≠ H.None) ∧
      (bp_is_compact H { current := cur :: rest } = some 0 ↔
        ¬ ∀ i j, inRange cur i j → bps_get (some cur) i j ≠ H.None →
          ∀ k, 0 ≤ k → k < i → bps_get (some cur) k j ≠ H.None) := by
  have h1 := (bp_is_compact_direct H cur rest).trans (direct_iff_all_above H cur)
  refine ⟨h1, ?_⟩
  rw [← h1]
  rcases bp_is_compact_values H cur rest with e | e <;> rw [e] <;> simp

/-! ## One float step, cell by cell -/

theorem fullTo_pred {H : Header} {s : BPState} {i j : Int} (h : fullTo H s i j) :
    fullTo H s (i - 1) j := fun k h0 h1 => h k h0 (by omega)

theorem fullTo_here {H : Header} {s : BPState} {i j : Int} (h : fullTo H s i j) (hi : 0 ≤ i) :
    bps_get (some s) i j ≠ H.None := h i hi (le_refl i)

theorem fullTo_succ {H : Header} {s : BPState} {i j : Int} (h : fullTo H s (i - 1) j)
    (hne : bps_get (some s) i j ≠ H.None) : fullTo H s i j := by
  intro k h0 h1
  by_cases e : k = i
  · rw [e]; exact hne
  · exact h k h0 (by omega)

theorem sameShape_self {s : BPState} (hw : wfState s) : SameShape s s := ⟨hw, rfl, rfl, rfl⟩

theorem SameShape.inRange_iff {s st : BPState} (h : SameShape s st) (a b : Int) :
    inRange st a b ↔ inRange s a b := by
  unfold BP.inRange; rw [h.2.1, h.2.2.1]

theorem floatCell_shape (H : Header) {s st : BPState} (h : SameShape s st) (i j : Int) :
    SameShape s (floatCell H st i j) := by
  unfold floatCell
  split
  · exact ⟨wfState_setCell (wfState_setCell h.1 _ _ _) _ _ _, by simpa using h.2.1,
      by simpa using h.2.2.1, by simpa using h.2.2.2⟩
  · exact h

theorem get_floatCell_moved (H : Header) {st : BPState} (hw : wfState st) {i j : Int}
    (hr : inRange st i j) (hi : 1 ≤ i) (hfl : floats H st i j = true) (a b : Int) :
    bps_get (some (floatCell H st i j)) a b =
      if a = i ∧ b = j then H.None
      else if a = i - 1 ∧ b = j then bps_get (some st) i j else bps_get (some st) a b := by
  have hr1 : inRange st (i - 1) j := ⟨by omega, by have := hr.2.1; omega, hr.2.2.1, hr.2.2.2⟩
  have hr2 : inRange (setCell st (i - 1) j (bps_get (some st) i j)) i j := by simpa using hr
  unfold floatCell
  rw [if_pos hfl, get_setCell (wfState_setCell hw _ _ _) hr2, get_setCell hw hr1]

theorem get_floatCell_other_col (H : Header) (st : BPState) (i j a b : Int) (hb : b ≠ j) :
    bps_get (some (floatCell H st i j)) a b = bps_get (some st) a b := by
  unfold floatCell
  split
  · rw [get_setCell_other _ _ (fun e => hb e.2), get_setCell_other _ _ (fun e => hb e.2)]
  · rfl

/-- One execution of the loop body at `(i, j)` carries the invariant of the inner loop from
column `j` to column `j + 1`. -/
theorem floatCell_step (H : Header) (s st : BPState) (i j : Int) (hi1 : 1 ≤ i)
    (hi2 : i < s.nrows) (hj1 : 0 ≤ j) (hj2 : j < s.ncols) (hs : SameShape s st)
    (hq : ∀ a b, inRange s a b →
      (b < j → FloatRowInv H s (i + 1) a b (bps_get (some st) a b)) ∧
      (j ≤ b → FloatRowInv H s i a b (bps_get (some st) a b))) :
    ∀ a b, inRange s a b →
      (b < j + 1 → FloatRowInv H s (i + 1) a b (bps_get (some (floatCell H st i j)) a b)) ∧
      (j + 1 ≤ b → FloatRowInv H s i a b (bps_get (some (floatCell H st i j)) a b)) := by
  have hri : inRange s i j := ⟨by omega, hi2, hj1, hj2⟩
  have hri1 : inRange s (i - 1) j := ⟨by omega, by omega, hj1, hj2⟩
  -- what the invariant says about the two cells the body reads
  have hw_eq : bps_get (some st) i j = bps_get (some s) i j :=
    ((hq i j hri).2 (le_refl j)).2.2 (le_refl i)
  have hu : FloatPending H s (i - 1) j (bps_get (some st) (i - 1) j) :=
    ((hq (i - 1) j hri1).2 (le_refl j)).2.1 (by omega)
  have hbelow : belowOf H s (i - 1) j = bps_get (some s) i j := by
    unfold belowOf
    have : i - 1 + 1 < s.nrows := by omega
    rw [if_pos this]
    congr 1
    omega
  intro a b hab
  by_cases hb : b = j
  · subst hb
    have hR : FloatRowInv H s i a b (bps_get (some st) a b) := (hq a b hab).2 (le_refl b)
    refine ⟨fun _ => ?_, fun h => absurd h (by omega)⟩
    by_cases hfl : floats H st i b = true
    · -- the balloon of row `i` moves up
      obtain ⟨hwne, hunone⟩ := (floats_iff H st i b).mp hfl
      have hnotfull : ¬ fullTo H s (i - 1) b := fun hf =>
        fullTo_here hf (by omega) ((hu.1 hf) ▸ hunone)
      rw [get_floatCell_moved H hs.1 ((hs.inRange_iff i b).mpr hri) hi1 hfl]
      refine ⟨fun ha => ?_, fun ha => ?_, fun ha => ?_⟩
      · have hne : ¬ (a = i ∧ b = b) := fun e => by omega
        rw [if_neg hne]
        by_cases ha1 : a = i - 1
        · rw [if_pos ⟨ha1, rfl⟩, ha1]
          exact ⟨fun hf => absurd hf hnotfull, fun _ => by rw [hbelow, hw_eq]⟩
        · have hne1 : ¬ (a = i - 1 ∧ b = b) := fun e => ha1 e.1
          rw [if_neg hne1]
          exact hR.1 (by omega)
      · have hai : a = i := by omega
        rw [if_pos ⟨hai, rfl⟩, hai]
        exact ⟨fun hf => absurd (fullTo_pred hf) hnotfull, fun _ => rfl⟩
      · have hne : ¬ (a = i ∧ b = b) := fun e => by omega
        have hne1 : ¬ (a = i - 1 ∧ b = b) := fun e => by omega
        rw [if_neg hne, if_neg hne1]
        exact hR.2.2 (by omega)
    · -- nothing moves
      have hsame : floatCell H st i b = st := by unfold floatCell; rw [if_neg hfl]
      rw [hsame]
      have hnofl : ¬ (bps_get (some st) i b ≠ H.None ∧ bps_get (some st) (i - 1) b = H.None) :=
        fun h => hfl ((floats_iff H st i b).mpr h)
      refine ⟨fun ha => ?_, fun ha => ?_, fun ha => hR.2.2 (by omega)⟩
      · by_cases ha1 : a = i - 1
        · rw [ha1]
          refine ⟨hu.1, fun hnf => ?_⟩
          rw [hbelow, hu.2 hnf, ← hw_eq]
          by_contra hc
          exact hnofl ⟨fun e => hc e.symm, hu.2 hnf⟩
        · exact hR.1 (by omega)
      · have hai : a = i := by omega
        rw [hai]
        refine ⟨fun _ => hw_eq, fun hnf => ?_⟩
        by_contra hc
        apply hnf
        apply fullTo_succ _ (hw_eq ▸ hc)
        by_contra hnf1
        exact hnofl ⟨hc, hu.2 hnf1⟩
  · rw [get_floatCell_other_col H st i j a b hb]
    exact ⟨fun h => (hq a b hab).1 (by omega), fun h => (hq a b hab).2 (by omega)⟩

/-- The inner loop on row `i` carries the invariant of the outer loop from `i` to `i + 1`. -/
theorem floatRow_step (H : Header) (s st : BPState) (i : Int) (hi1 : 1 ≤ i) (hi2 : i < s.nrows)
    (hs : SameShape s st)
    (hp : ∀ a b, inRange s a b → FloatRowInv H s i a b (bps_get (some st) a b)) :
    SameShape s (floatRow H st i) ∧
      ∀ a b, inRange s a b → FloatRowInv H s (i + 1) a b (bps_get (some (floatRow H st i)) a b) := by
  unfold floatRow
  rw [hs.2.2.1]
  have h := foldl_intRange_inv (fun x j => floatCell H x i j)
    (fun j x => SameShape s x ∧ ∀ a b, inRange s a b →
      (b < j → FloatRowInv H s (i + 1) a b (bps_get (some x) a b)) ∧
      (j ≤ b → FloatRowInv H s i a b (bps_get (some x) a b)))
    0 s.ncols (by have := hs.1.2.1; rw [hs.2.2.1] at this; exact this) st
    ⟨hs, fun a b hab => ⟨fun hb => absurd hab.2.2.1 (by omega), fun _ => hp a b hab⟩⟩
    (fun j x hj1 hj2 hx =>
      ⟨floatCell_shape H hx.1 i j, floatCell_step H s x i j hi1 hi2 hj1 hj2 hx.1 hx.2⟩)
  exact ⟨h.1, fun a b hab => (h.2 a b hab).1 hab.2.2.2⟩

/-- One float step in closed form: the snapshot keeps its shape, and an in-range cell keeps
its value while its column is full down to it and takes the value from right below
otherwise. -/
theorem floatState_closed (H : Header) {s : BPState} (hw : wfState s) :
    SameShape s (floatState H s) ∧
      ∀ a b, inRange s a b → FloatFinal H s a b (bps_get (some (floatState H s)) a b) := by
  unfold floatState
  by_cases hn : 1 ≤ s.nrows
  · have h := foldl_intRange_inv (fun x i => floatRow H x i)
      (fun i x => SameShape s x ∧
        ∀ a b, inRange s a b → FloatRowInv H s i a b (bps_get (some x) a b))
      1 s.nrows hn s
      ⟨sameShape_self hw, fun a b hab =>
        ⟨fun h => absurd hab.1 (by omega),
          fun h => by
            have ha : a = 0 := by omega
            subst ha
            refine ⟨fun _ => rfl, fun hnf => ?_⟩
            by_contra hc
            apply hnf
            intro k hk0 hk1
            have : k = 0 := by omega
            rw [this]; exact hc,
          fun _ => rfl⟩⟩
      (fun i x hi1 hi2 hx => floatRow_step H s x i hi1 hi2 hx.1 hx.2)
    refine ⟨h.1, fun a b hab => ?_⟩
    obtain ⟨h1, h2, -⟩ := h.2 a b hab
    by_cases ha : a + 1 < s.nrows
    · exact h1 ha
    · have hp := h2 (by have := hab.2.1; omega)
      refine ⟨hp.1, fun hnf => ?_⟩
      rw [hp.2 hnf]
      unfold belowOf
      rw [if_neg ha]
  · rw [intRange_eq_nil (by omega)]
    exact ⟨sameShape_self hw, fun a b hab => absurd hab.2.1 (by have := hab.1; omega)⟩

theorem floatState_full (H : Header) {s : BPState} (hw : wfState s) {i j : Int}
    (hr : inRange s i j) (hf : fullTo H s i j) : fullTo H (floatState H s) i j := by
  intro k hk0 hk1
  have hk : inRange s k j := ⟨hk0, by have := hr.2.1; omega, hr.2.2.1, hr.2.2.2⟩
  have hfk : fullTo H s k j := fun m hm0 hm1 => hf m hm0 (by omega)
  rw [((floatState_closed H hw).2 k j hk).1 hfk]
  exact fullTo_here hfk hk0

/-- A float step settles one more row. -/
theorem settledFrom_step (H : Header) {s : BPState} (hw : wfState s) {m : Int}
    (h : settledFrom H s m) : settledFrom H (floatState H s) (m - 1) := by
  obtain ⟨hshape, hcl⟩ := floatState_closed H hw
  intro i j hr hm hnf
  have hr0 : inRange s i j := (hshape.inRange_iff i j).mp hr
  have hnf0 : ¬ fullTo H s i j := fun hf => hnf (floatState_full H hw hr0 hf)
  rw [(hcl i j hr0).2 hnf0]
  unfold belowOf
  split
  · next hlt =>
    exact h (i + 1) j ⟨by have := hr0.1; omega, hlt, hr0.2.2.1, hr0.2.2.2⟩ (by omega)
      (fun hf => hnf0 (by have := fullTo_pred hf; simpa using this))
  · rfl

theorem settledFrom_mono (H : Header) {s : BPState} {m m1 : Int} (hle : m ≤ m1)
    (h : settledFrom H s m) : settledFrom H s m1 :=
  fun i j hr hm hnf => h i j hr (by omega) hnf

/-- A board settled from row 1 down passes the scan of `bp_is_compact`. -/
theorem compact_of_settled (H : Header) {cur : BPState} (rest : List BPState)
    (h : settledFrom H cur 1) : bp_is_compact H { current := cur :: rest } = some 1 := by
  rw [bp_is_compact_direct]
  intro i j hr hi hne habove
  apply hne
  apply h i j hr hi
  intro hf
  exact hf (i - 1) (by omega) (by omega) habove

theorem floatSteps_cons (H : Header) (rest : List BPState) :
    ∀ (k : Nat) (cur : BPState), floatSteps H k { current := cur :: rest } =
      some { current := (floatState H)^[k] cur :: rest } := by
  intro k
  induction k with
  | zero => intro cur; rfl
  | succ k ih =>
    intro cur
    simp only [floatSteps, bp_float_one_step, ih, Function.iterate_succ, Function.comp_apply]

theorem iterate_settled (H : Header) {s : BPState} (hw : wfState s) :
    ∀ k : Nat, SameShape s ((floatState H)^[k] s) ∧
      settledFrom H ((floatState H)^[k] s) (s.nrows - k) := by
  intro k
  induction k with
  | zero =>
    refine ⟨sameShape_self hw, fun i j hr hm _ => absurd hr.2.1 ?_⟩
    simp only [Function.iterate_zero, id_eq] at hm ⊢
    push_cast at hm
    omega
  | succ k ih =>
    rw [Function.iterate_succ_apply']
    obtain ⟨hs, hset⟩ := ih
    obtain ⟨hs1, -⟩ := floatState_closed H hs.1
    refine ⟨⟨hs1.1, hs1.2.1.trans hs.2.1, hs1.2.2.1.trans hs.2.2.1, hs1.2.2.2.trans hs.2.2.2⟩, ?_⟩
    have := settledFrom_step H hs.1 hset
    have e : s.nrows - ((k + 1 : Nat) : Int) = s.nrows - k - 1 := by push_cast; ring
    rw [e]
    exact this

/-- C9: for every well-formed board there is a number `k` of successive calls of
`bp_float_one_step`, `k` at most the number of rows, after which `bp_is_compact` returns 1;
in fact every `k ≥ nrows - 1` will do. -/
theorem bp_float_reaches_compact (H : Header) (cur : BPState) (rest : List BPState)
    (hw : wfState cur) :
    (∃ k : Nat, (k : Int) ≤ cur.nrows ∧
        (floatSteps H k { current := cur :: rest }).bind (bp_is_compact H) = some 1) ∧
      ∀ k : Nat, cur.nrows - 1 ≤ (k : Int) →
        (floatSteps H k { current := cur :: rest }).bind (bp_is_compact H) = some 1 := by
  have hall : ∀ k : Nat, cur.nrows - 1 ≤ (k : Int) →
      (floatSteps H k { current := cur :: rest }).bind (bp_is_compact H) = some 1 := by
    intro k hk
    rw [floatSteps_cons, Option.some_bind]
    exact compact_of_settled H rest (settledFrom_mono H (by omega) (iterate_settled H hw k).2)
  refine ⟨⟨cur.nrows.toNat, ?_, hall _ ?_⟩, hall⟩
  · have := hw.1; omega
  · have := hw.1; omega

theorem bp_float_reaches_compact_witness :
    wfState gapColumn ∧
      ((∃ k : Nat, (k : Int) ≤ gapColumn.nrows ∧
          (floatSteps stdHeader k { current := [gapColumn] }).bind (bp_is_compact stdHeader) =
            some 1) ∧
        ∀ k : Nat, gapColumn.nrows - 1 ≤ (k : Int) →
          (floatSteps stdHeader k { current := [gapColumn] }).bind (bp_is_compact stdHeader) =
            some 1) :=
  ⟨by decide, bp_float_reaches_compact stdHeader gapColumn [] (by decide)⟩

/-! ## One float step, column by column -/

theorem shiftUp_length (N : Int) : ∀ l : List Int, (shiftUp N l).length = l.length := by
  intro l
  induction l with
  | nil => rfl
  | cons a l ih =>
    unfold shiftUp
    split
    · simp
    · simp [ih]

theorem getD_append_default (N : Int) (l : List Int) (i : Nat) :
    (l ++ [N]).getD i N = l.getD i N := by
  induction l generalizing i with
  | nil => cases i <;> simp
  | cons a l ih =>
    cases i with
    | zero => simp
    | succ i => simpa using ih i

/-- The entries of a shifted column: unchanged above the first empty cell, taken from one
row below from there on. -/
theorem shiftUp_getD (N : Int) : ∀ (l : List Int) (i : Nat),
    ((∀ k, k ≤ i → l.getD k N ≠ N) → (shiftUp N l).getD i N = l.getD i N) ∧
    (¬ (∀ k, k ≤ i → l.getD k N ≠ N) → (shiftUp N l).getD i N = l.getD (i + 1) N) := by
  intro l
  induction l with
  | nil =>
    intro i
    refine ⟨fun _ => by simp [shiftUp], fun _ => by simp [shiftUp]⟩
  | cons a l ih =>
    intro i
    by_cases ha : a = N
    · have hs : shiftUp N (a :: l) = l ++ [N] := by simp [shiftUp, ha]
      rw [hs, getD_append_default]
      refine ⟨fun h => absurd (by simpa using ha) (h 0 (Nat.zero_le i)), fun _ => by simp⟩
    · have hs : shiftUp N (a :: l) = a :: shiftUp N l := by simp [shiftUp, ha]
      rw [hs]
      cases i with
      | zero =>
        refine ⟨fun _ => by simp, fun h => absurd ?_ h⟩
        intro k hk
        have : k = 0 := by omega
        subst this
        simpa using ha
      | succ i =>
        have hiff : (∀ k, k ≤ i + 1 → (a :: l).getD k N ≠ N) ↔ (∀ k, k ≤ i → l.getD k N ≠ N) := by
          constructor
          · intro h k hk
            have := h (k + 1) (by omega)
            simpa using this
          · intro h k hk
            cases k with
            | zero => simpa using ha
            | succ k => simpa using h k (by omega)
        rw [hiff]
        simp only [List.getD_cons_succ]
        exact ih i

theorem balloons_shiftUp (H : Header) (l : List Int) :
    balloons H (shiftUp H.None l) = balloons H l := by
  induction l with
  | nil => rfl
  | cons a l ih =>
    unfold shiftUp
    by_cases ha : a = H.None
    · rw [if_pos ha]
      simp [balloons, List.filter_cons, ha]
    · rw [if_neg ha]
      unfold balloons at ih ⊢
      simp only [List.filter_cons, ih]

theorem intRange_length (lo hi : Int) : (intRange lo hi).length = (hi - lo).toNat := by
  simp [intRange]

theorem column_length (s : BPState) (j : Int) : (column s j).length = s.nrows.toNat := by
  simp [column, intRange_length]

theorem column_getD (s : BPState) (j : Int) (k : Nat) (d : Int) (hk : k < s.nrows.toNat) :
    (column s j).getD k d = bps_get (some s) (k : Int) j := by
  have hlen : k < (column s j).length := by rw [column_length]; exact hk
  rw [List.getD_eq_getElem _ _ hlen]
  simp [column, intRange]

theorem column_getD_out (s : BPState) (j : Int) (k : Nat) (d : Int) (hk : s.nrows.toNat ≤ k) :
    (column s j).getD k d = d := by
  apply List.getD_eq_default
  rw [column_length]; exact hk

theorem fullTo_column (H : Header) (s : BPState) (j : Int) (i : Nat) (hi : i < s.nrows.toNat) :
    fullTo H s (i : Int) j ↔ ∀ k, k ≤ i → (column s j).getD k H.None ≠ H.None := by
  constructor
  · intro h k hk
    rw [column_getD s j k _ (by omega)]
    exact h k (by omega) (by omega)
  · intro h k hk0 hk1
    have := h k.toNat (by omega)
    rw [column_getD s j _ _ (by omega)] at this
    have e : ((k.toNat : Nat) : Int) = k := Int.toNat_of_nonneg hk0
    rw [e] at this
    exact this

/-- One float step moves the first empty cell of every column to the bottom of the column. -/
theorem column_floatState (H : Header) {s : BPState} (hw : wfState s) {j : Int} (hj0 : 0 ≤ j)
    (hj1 : j < s.ncols) : column (floatState H s) j = shiftUp H.None (column s j) := by
  obtain ⟨hshape, hcl⟩ := floatState_closed H hw
  have hrows : (floatState H s).nrows = s.nrows := hshape.2.1
  apply List.ext_getElem
  · rw [shiftUp_length, column_length, column_length, hrows]
  · intro i h1 h2
    rw [column_length, hrows] at h1
    have hin : inRange s (i : Int) j := ⟨by omega, by omega, hj0, hj1⟩
    have e1 : (column (floatState H s) j)[i] = bps_get (some (floatState H s)) (i : Int) j := by
      rw [← List.getD_eq_getElem _ H.None, column_getD _ _ _ _ (by rw [hrows]; exact h1)]
    have e2 : (shiftUp H.None (column s j))[i] = (shiftUp H.None (column s j)).getD i H.None := by
      rw [List.getD_eq_getElem]
    rw [e1, e2]
    obtain ⟨c1, c2⟩ := hcl (i : Int) j hin
    obtain ⟨g1, g2⟩ := shiftUp_getD H.None (column s j) i
    by_cases hf : fullTo H s (i : Int) j
    · rw [c1 hf, g1 ((fullTo_column H s j i h1).mp hf), column_getD s j i _ h1]
    · rw [c2 hf, g2 (fun h => hf ((fullTo_column H s j i h1).mpr h))]
      unfold belowOf
      split
      · next hlt =>
        rw [column_getD s j (i + 1) _ (by omega)]
        push_cast; rfl
      · next hge => rw [column_getD_out s j (i + 1) _ (by omega)]

/-! ## One float step permutes the board -/

theorem count_set_getD (l : List Int) (i : Nat) (a x d : Int) (hi : i < l.length) :
    (l.set i a).count x + (if l.getD i d = x then 1 else 0) =
      l.count x + (if a = x then 1 else 0) := by
  induction l generalizing i with
  | nil => simp at hi
  | cons b l ih =>
    cases i with
    | zero =>
      simp only [List.set_cons_zero, List.count_cons, List.getD_cons_zero, beq_iff_eq]
      omega
    | succ i =>
      have := ih i (by simpa using hi)
      simp only [List.set_cons_succ, List.count_cons, List.getD_cons_succ, beq_iff_eq]
      omega

theorem floatCell_count (H : Header) {st : BPState} (hw : wfState st) {i j : Int}
    (hr : inRange st i j) (hi : 1 ≤ i) (v : Int) :
    (floatCell H st i j).board.count v = st.board.count v := by
  unfold floatCell
  split
  · next hfl =>
    obtain ⟨-, hu⟩ := (floats_iff H st i j).mp hfl
    have hr1 : inRange st (i - 1) j := ⟨by omega, by have := hr.2.1; omega, hr.2.2.1, hr.2.2.2⟩
    have hr2 : inRange (setCell st (i - 1) j (bps_get (some st) i j)) i j := by simpa using hr
    have ha := flat_lt hw hr1
    have hb := flat_lt hw hr
    have hab : ((i - 1) * st.ncols + j).toNat ≠ (i * st.ncols + j).toNat := by
      intro e
      have := flat_inj hr.2.2.1 hr.2.2.2 hr.2.2.1 hr.2.2.2 hr1.1 hr.1 e
      omega
    rw [setCell_inRange _ hr2, setCell_inRange _ hr1]
    simp only
    rw [bps_get_inRange hr1] at hu
    rw [bps_get_inRange hr]
    have c1 := count_set_getD st.board ((i - 1) * st.ncols + j).toNat
      (st.board.getD (i * st.ncols + j).toNat 0) v 0 ha
    have c2 := count_set_getD (st.board.set ((i - 1) * st.ncols + j).toNat
      (st.board.getD (i * st.ncols + j).toNat 0)) (i * st.ncols + j).toNat H.None v 0
      (by simpa using hb)
    have e : (st.board.set ((i - 1) * st.ncols + j).toNat
        (st.board.getD (i * st.ncols + j).toNat 0)).getD (i * st.ncols + j).toNat 0 =
        st.board.getD (i * st.ncols + j).toNat 0 := by
      rw [List.getD_eq_getElem?_getD, List.getD_eq_getElem?_getD, List.getElem?_set_ne hab]
    rw [e] at c2
    rw [hu] at c1
    omega
  · rfl

theorem floatState_count (H : Header) {s : BPState} (hw : wfState s) (v : Int) :
    (floatState H s).board.count v = s.board.count v := by
  have h : SameShape s (floatState H s) ∧ (floatState H s).board.count v = s.board.count v := by
    unfold floatState
    apply foldl_intRange_keep (fun x i => floatRow H x i)
      (fun x => SameShape s x ∧ x.board.count v = s.board.count v)
    · exact ⟨sameShape_self hw, rfl⟩
    · intro i x hi1 hi2 hx
      unfold floatRow
      apply foldl_intRange_keep (fun y j => floatCell H y i j)
        (fun y => SameShape s y ∧ y.board.count v = s.board.count v)
      · exact hx
      · intro j y hj1 hj2 hy
        refine ⟨floatCell_shape H hy.1 i j, ?_⟩
        rw [floatCell_count H hy.1.1 ?_ hi1 v, hy.2]
        rw [hy.1.inRange_iff]
        rw [hx.1.2.2.1] at hj2
        exact ⟨by omega, hi2, hj1, hj2⟩
  exact h.2

/-- C10: a call of `bp_float_one_step` on a well-formed board neither creates nor destroys
tokens.  The new current snapshot has the old dimensions; every column is the old column
with its first empty cell moved to the bottom, so its top-to-bottom sequence of balloons is
the same; every value occurs as often on the board as before; and a balloon of cell `(i, j)`
is afterwards in `(i, j)` when the column is full down to row `i`, and in `(i - 1, j)`
otherwise. -/
theorem bp_float_keeps_tokens (H : Header) (cur : BPState) (rest : List BPState)
    (hw : wfState cur) :
    ∃ nw, bp_float_one_step H { current := cur :: rest } = some { current := nw :: rest } ∧
      nw.nrows = cur.nrows ∧ nw.ncols = cur.ncols ∧
      (∀ j, 0 ≤ j → j < cur.ncols →
        column nw j = shiftUp H.None (column cur j) ∧
        balloons H (column nw j) = balloons H (column cur j)) ∧
      (∀ v, nw.board.count v = cur.board.count v) ∧
      (∀ i j, inRange cur i j → bps_get (some cur) i j ≠ H.None →
        (fullTo H cur i j → bps_get (some nw) i j = bps_get (some cur) i j) ∧
        (¬ fullTo H cur i j → 1 ≤ i ∧ bps_get (some nw) (i - 1) j = bps_get (some cur) i j)) := by
  obtain ⟨hshape, hcl⟩ := floatState_closed H hw
  refine ⟨floatState H cur, rfl, hshape.2.1, hshape.2.2.1, ?_, floatState_count H hw, ?_⟩
  · intro j hj0 hj1
    have hc := column_floatState H hw hj0 hj1
    exact ⟨hc, by rw [hc, balloons_shiftUp]⟩
  · intro i j hr hne
    refine ⟨(hcl i j hr).1, fun hnf => ?_⟩
    have hi : 1 ≤ i := by
      by_contra hc
      apply hnf
      intro k hk0 hk1
      have : k = i := by have := hr.1; omega
      rw [this]; exact hne
    have hr1 : inRange cur (i - 1) j := ⟨by omega, by have := hr.2.1; omega, hr.2.2.1, hr.2.2.2⟩
    have hnf1 : ¬ fullTo H cur (i - 1) j := fun hf => hnf (fullTo_succ hf hne)
    refine ⟨hi, ?_⟩
    rw [(hcl (i - 1) j hr1).2 hnf1]
    unfold belowOf
    have : i - 1 + 1 < cur.nrows := by have := hr.2.1; omega
    rw [if_pos this]
    congr 1
    omega

theorem bp_float_keeps_tokens_witness :
    wfState gapColumn ∧
      ∃ nw, bp_float_one_step stdHeader { current := [gapColumn] } = some { current := [nw] } ∧
        nw.nrows = gapColumn.nrows ∧ nw.ncols = gapColumn.ncols ∧
        (∀ j, 0 ≤ j → j < gapColumn.ncols →
          column nw j = shiftUp stdHeader.None (column gapColumn j) ∧
          balloons stdHeader (column nw j) = balloons stdHeader (column gapColumn j)) ∧
        (∀ v, nw.board.count v = gapColumn.board.count v) ∧
        (∀ i j, inRange gapColumn i j → bps_get (some gapColumn) i j ≠ stdHeader.None →
          (fullTo stdHeader gapColumn i j →
            bps_get (some nw) i j = bps_get (some gapColumn) i j) ∧
          (¬ fullTo stdHeader gapColumn i j →
            1 ≤ i ∧ bps_get (some nw) (i - 1) j = bps_get (some gapColumn) i j)) :=
  ⟨by decide, bp_float_keeps_tokens stdHeader gapColumn [] (by decide)⟩

/-! ## Snapshots are determined by their cells -/

/-- Every index of the flat board is the row-major index of an in-range cell. -/
theorem flat_decompose {s : BPState} (hw : wfState s) {k : Nat} (hk : k < s.board.length) :
    ∃ r c, inRange s r c ∧ (r * s.ncols + c).toNat = k := by
  obtain ⟨h1, h2, h3⟩ := hw
  have hlt : (k : Int) < s.nrows * s.ncols := by
    rw [h3] at hk
    have : 0 ≤ s.nrows * s.ncols := Int.mul_nonneg h1 h2
    omega
  have hcpos : 0 < s.ncols := by
    rcases lt_or_eq_of_le h2 with h | h
    · exact h
    · rw [← h] at hlt; simp at hlt; omega
  refine ⟨(k : Int) / s.ncols, (k : Int) % s.ncols, ⟨?_, ?_, ?_, ?_⟩, ?_⟩
  · exact Int.ediv_nonneg (by omega) h2
  · exact Int.ediv_lt_of_lt_mul hcpos hlt
  · exact Int.emod_nonneg _ (by omega)
  · exact Int.emod_lt_of_pos _ hcpos
  · have := Int.ediv_add_emod (k : Int) s.ncols
    have e : (k : Int) / s.ncols * s.ncols + (k : Int) % s.ncols = k := by
      rw [mul_comm]; exact this
    rw [e]; simp

/-- Two well-formed snapshots of the same dimensions and score that read the same at every
in-range cell are the same snapshot. -/
theorem state_ext {s s1 : BPState} (hw : wfState s) (hw1 : wfState s1)
    (hr : s1.nrows = s.nrows) (hc : s1.ncols = s.ncols) (hs : s1.score = s.score)
    (hcells : ∀ r c, inRange s r c → bps_get (some s1) r c = bps_get (some s) r c) :
    s1 = s := by
  have hlen : s1.board.length = s.board.length := by rw [hw1.2.2, hw.2.2, hr, hc]
  have hb : s1.board = s.board := by
    apply List.ext_getElem hlen
    intro k h1 h2
    obtain ⟨r, c, hin, hk⟩ := flat_decompose hw h2
    have hin1 : inRange s1 r c := by unfold inRange at hin ⊢; rw [hr, hc]; exact hin
    have := hcells r c hin
    rw [bps_get_inRange hin, bps_get_inRange hin1, hc, hk,
      List.getD_eq_getElem _ _ h1, List.getD_eq_getElem _ _ h2] at this
    exact this
  cases s; cases s1
  simp only at hr hc hs hb
  subst hr hc hs hb
  rfl

/-! ## Float: which balloons move -/

/-- C11: one call of `bp_float_one_step` on a well-formed board moves up by exactly one row
every balloon that has an empty cell somewhere above it in its column (the balloon is then
in `(i - 1, j)` and its old cell holds what was right below it, or `None` in the last row),
and leaves in its cell every balloon with balloons all the way above it. -/
theorem bp_float_moves_up_one (H : Header) (cur : BPState) (rest : List BPState)
    (hw : wfState cur) :
    ∃ nw, bp_float_one_step H { current := cur :: rest } = some { current := nw :: rest } ∧
      ∀ i j, inRange cur i j → bps_get (some cur) i j ≠ H.None →
        ((∃ k, 0 ≤ k ∧ k < i ∧ bps_get (some cur) k j = H.None) →
          1 ≤ i ∧ bps_get (some nw) (i - 1) j = bps_get (some cur) i j ∧
            bps_get (some nw) i j = belowOf H cur i j) ∧
        ((∀ k, 0 ≤ k → k < i → bps_get (some cur) k j ≠ H.None) →
          bps_get (some nw) i j = bps_get (some cur) i j) := by
  obtain ⟨-, hcl⟩ := floatState_closed H hw
  refine ⟨floatState H cur, rfl, fun i j hr hne => ⟨?_, ?_⟩⟩
  · rintro ⟨k, hk0, hki, hk⟩
    have hnf : ¬ fullTo H cur i j := fun hf => hf k hk0 (by omega) hk
    have hnf1 : ¬ fullTo H cur (i - 1) j := fun hf => hf k hk0 (by omega) hk
    have hr1 : inRange cur (i - 1) j := ⟨by omega, by have := hr.2.1; omega, hr.2.2.1, hr.2.2.2⟩
    refine ⟨by omega, ?_, (hcl i j hr).2 hnf⟩
    rw [(hcl (i - 1) j hr1).2 hnf1]
    unfold belowOf
    have : i - 1 + 1 < cur.nrows := by have := hr.2.1; omega
    rw [if_pos this]
    congr 1
    omega
  · intro hall
    apply (hcl i j hr).1
    intro k hk0 hk1
    by_cases e : k = i
    · rw [e]; exact hne
    · exact hall k hk0 (by omega)

theorem bp_float_moves_up_one_witness :
    wfState gapOnTop ∧
      ∃ nw, bp_float_one_step stdHeader { current := [gapOnTop] } = some { current := [nw] } ∧
        ∀ i j, inRange gapOnTop i j → bps_get (some gapOnTop) i j ≠ stdHeader.None →
          ((∃ k, 0 ≤ k ∧ k < i ∧ bps_get (some gapOnTop) k j = stdHeader.None) →
            1 ≤ i ∧ bps_get (some nw) (i - 1) j = bps_get (some gapOnTop) i j ∧
              bps_get (some nw) i j = belowOf stdHeader gapOnTop i j) ∧
          ((∀ k, 0 ≤ k → k < i → bps_get (some gapOnTop) k j ≠ stdHeader.None) →
            bps_get (some nw) i j = bps_get (some gapOnTop) i j) :=
  ⟨by decide, bp_float_moves_up_one stdHeader gapOnTop [] (by decide)⟩

/-! ## Cell access -/

/-- C17: the laws of `bps_get` and `bps_set` on a well-formed snapshot.  For an in-range
`(r, c)`, after `bps_set (r, c, v)` the cell reads `v`, every other position reads as
before, and the score and the dimensions are unchanged; for an out-of-range `(r, c)`
`bps_set` changes nothing and `bps_get` returns `-1`; on the null snapshot `bps_set` does
nothing and `bps_get` returns `-1`. -/
theorem bps_get_set_laws (s : BPState) (r c v : Int) (hw : wfState s) :
    (inRange s r c →
        ∃ s1, bps_set (some s) r c v = some s1 ∧ bps_get (some s1) r c = v ∧
          (∀ r1 c1, ¬ (r1 = r ∧ c1 = c) → bps_get (some s1) r1 c1 = bps_get (some s) r1 c1) ∧
          s1.score = s.score ∧ s1.nrows = s.nrows ∧ s1.ncols = s.ncols) ∧
      (¬ inRange s r c → bps_set (some s) r c v = some s ∧ bps_get (some s) r c = -1) ∧
      bps_set none r c v = none ∧ bps_get none r c = -1 := by
  refine ⟨fun hr => ?_, fun hr => ?_, rfl, rfl⟩
  · exact ⟨setCell s r c v, bps_set_some s r c v, get_setCell_same hw hr v,
      fun r1 c1 hne => get_setCell_other s v hne, setCell_score s r c v, setCell_nrows s r c v,
      setCell_ncols s r c v⟩
  · exact ⟨by rw [bps_set_some, setCell_not_inRange v hr], bps_get_not_inRange hr⟩

theorem bps_get_set_laws_witness :
    wfState pairBoard ∧
      ((inRange pairBoard 0 1 →
          ∃ s1, bps_set (some pairBoard) 0 1 7 = some s1 ∧ bps_get (some s1) 0 1 = 7 ∧
            (∀ r1 c1, ¬ (r1 = 0 ∧ c1 = 1) →
              bps_get (some s1) r1 c1 = bps_get (some pairBoard) r1 c1) ∧
            s1.score = pairBoard.score ∧ s1.nrows = pairBoard.nrows ∧
            s1.ncols = pairBoard.ncols) ∧
        (¬ inRange pairBoard 0 1 →
          bps_set (some pairBoard) 0 1 7 = some pairBoard ∧ bps_get (some pairBoard) 0 1 = -1) ∧
        bps_set none 0 1 7 = none ∧ bps_get none 0 1 = -1) :=
  ⟨by decide, bps_get_set_laws pairBoard 0 1 7 (by decide)⟩

/-! ## Creation: dimensions and contents -/

/-- What `bp_create` returns for dimensions between 0 and the maxima: a session with one
well-formed snapshot of these dimensions, score 0 and no predecessor. -/
theorem bp_create_good (H : Header) (rnd : Nat → Nat) {nrows ncols : Int} (h0 : 0 ≤ nrows)
    (h1 : nrows ≤ H.MAX_ROWS) (h2 : 0 ≤ ncols) (h3 : ncols ≤ H.MAX_COLS) :
    ∃ s, bp_create H rnd nrows ncols = some { current := [s] } ∧ wfState s ∧
      s.nrows = nrows ∧ s.ncols = ncols ∧ s.score = 0 := by
  obtain ⟨s0, e0, w0, a0, b0, c0⟩ := bps_create_some H h0 h1 h2 h3
  obtain ⟨s1, e1, w1, a1, b1, c1⟩ := randomFill_good H rnd s0 nrows ncols w0 c0
  have hc : ¬ (nrows > H.MAX_ROWS ∨ ncols > H.MAX_COLS) := by omega
  refine ⟨s1, ?_, w1, by rw [a1, a0], by rw [b1, b0], c1⟩
  simp only [bp_create, if_neg hc, e0, e1, Option.toList]

/-- C12 (as the code has it): `bp_create` and `bp_create_from_mtx` return no session
whenever `nrows > MAX_ROWS` or `ncols > MAX_COLS`, and return a session whose board is
`nrows` by `ncols` whenever `0 ≤ nrows ≤ MAX_ROWS` and `0 ≤ ncols ≤ MAX_COLS`. -/
theorem bp_create_dimensions (H : Header) (rnd : Nat → Nat) (mtx : Int → Int → Int)
    (nrows ncols : Int) :
    ((nrows > H.MAX_ROWS ∨ ncols > H.MAX_COLS) →
        bp_create H rnd nrows ncols = none ∧ bp_create_from_mtx H rnd mtx nrows ncols = none) ∧
      (0 ≤ nrows → nrows ≤ H.MAX_ROWS → 0 ≤ ncols → ncols ≤ H.MAX_COLS →
        (∃ s, bp_create H rnd nrows ncols = some { current := [s] } ∧ wfState s ∧
          s.nrows = nrows ∧ s.ncols = ncols) ∧
        (∃ s, bp_create_from_mtx H rnd mtx nrows ncols = some { current := [s] } ∧ wfState s ∧
          s.nrows = nrows ∧ s.ncols = ncols)) := by
  refine ⟨fun h => ?_, fun h0 h1 h2 h3 => ⟨?_, ?_⟩⟩
  · have e : bp_create H rnd nrows ncols = none := by simp only [bp_create, if_pos h]
    exact ⟨e, by simp only [bp_create_from_mtx, e]⟩
  · obtain ⟨s, e, w, a, b, -⟩ := bp_create_good H rnd h0 h1 h2 h3
    exact ⟨s, e, w, a, b⟩
  · obtain ⟨s, e, w, a, b, -, -⟩ := bp_create_from_mtx_good H rnd mtx h0 h1 h2 h3
    exact ⟨s, e, w, a, b⟩

/-- C12 (the claim fails): for `nrows = 0` the claim requires no session, but `bp_create`
and `bp_create_from_mtx` return a session, with a board of 0 rows and 3 columns. -/
theorem bp_create_zero_rows :
    (0 : Int) ≤ 0 ∧
      bp_create stdHeader (fun k => k) 0 3 =
        some { current := [{ board := [], score := 0, nrows := 0, ncols := 3 }] } ∧
      bp_create_from_mtx stdHeader (fun k => k) (fun _ _ => 94) 0 3 =
        some { current := [{ board := [], score := 0, nrows := 0, ncols := 3 }] } := by
  decide

/-- For a negative number of rows `bps_create` returns `NULL`, and `bp_create`, which does not
look at that result, returns a session whose `current` is `NULL`; `bp_score` and `bp_undo`
then dereference the null pointer. -/
theorem bp_create_negative_rows :
    bp_create stdHeader (fun k => k) (-1) 3 = some { current := [] } ∧
      bp_score { current := [] } = none ∧ bp_undo { current := [] } = none := by
  decide

/-- C13: for dimensions between 0 and the maxima and any matrix, whatever values it holds,
`bp_create_from_mtx` returns a session in which `bp_get_balloon` reads the matrix at every
in-range cell, `bp_score` is 0 and `bp_undo` returns 0 and changes nothing; the session is the
same for every sequence of values of `rand ()`. -/
theorem bp_create_from_mtx_reads_matrix (H : Header) (rnd : Nat → Nat) (mtx : Int → Int → Int)
    (nrows ncols : Int) (h0 : 0 ≤ nrows) (h1 : nrows ≤ H.MAX_ROWS) (h2 : 0 ≤ ncols)
    (h3 : ncols ≤ H.MAX_COLS) :
    ∃ b, bp_create_from_mtx H rnd mtx nrows ncols = some b ∧
      (∀ r c, 0 ≤ r → r < nrows → 0 ≤ c → c < ncols → bp_get_balloon b r c = mtx r c) ∧
      bp_score b = some 0 ∧ bp_undo b = some (b, 0) ∧
      ∀ rnd1, bp_create_from_mtx H rnd1 mtx nrows ncols = some b := by
  obtain ⟨s, e, w, a, b, sc, g⟩ := bp_create_from_mtx_good H rnd mtx h0 h1 h2 h3
  refine ⟨{ current := [s] }, e, ?_, by simp only [bp_score, sc], rfl, fun rnd1 => ?_⟩
  · intro r c r0 r1 c0 c1
    exact g r c ⟨r0, by omega, c0, by omega⟩
  · obtain ⟨s1, e1, w1, a1, b1, sc1, g1⟩ := bp_create_from_mtx_good H rnd1 mtx h0 h1 h2 h3
    have hs : s1 = s := by
      apply state_ext w w1 (a1.trans a.symm) (b1.trans b.symm) (sc1.trans sc.symm)
      intro r c hr
      rw [g r c hr]
      apply g1
      unfold inRange at hr ⊢
      rw [a1, b1]; rw [a, b] at hr
      exact hr
    rw [e1, hs]

theorem bp_create_from_mtx_reads_matrix_witness :
    (0 : Int) ≤ 1 ∧ (1 : Int) ≤ stdHeader.MAX_ROWS ∧ (0 : Int) ≤ 2 ∧
      (2 : Int) ≤ stdHeader.MAX_COLS ∧
      ∃ b, bp_create_from_mtx stdHeader (fun k => k) (fun r c => 7 * r + c) 1 2 = some b ∧
        (∀ r c, 0 ≤ r → r < 1 → 0 ≤ c → c < 2 →
          bp_get_balloon b r c = (fun r c => 7 * r + c) r c) ∧
        bp_score b = some 0 ∧ bp_undo b = some (b, 0) ∧
        ∀ rnd1, bp_create_from_mtx stdHeader rnd1 (fun r c => 7 * r + c) 1 2 = some b :=
  ⟨by decide, by decide, by decide, by decide,
    bp_create_from_mtx_reads_matrix stdHeader (fun k => k) (fun r c => 7 * r + c) 1 2
      (by decide) (by decide) (by decide) (by decide)⟩

/-- C14 (evaluation of the code): the 1 by 1 matrix holding `'x'` (120), which is neither
the empty marker nor one of the four colours, is accepted: `bp_create_from_mtx` returns a
session whose only cell holds 120. -/
theorem bp_create_from_mtx_accepts_unknown_symbol :
    (120 : Int) ∉ [stdHeader.None, stdHeader.Red, stdHeader.Blue, stdHeader.Green,
        stdHeader.Yellow] ∧
      bp_create_from_mtx stdHeader (fun k => k) (fun _ _ => 120) 1 1 =
        some { current := [{ board := [120], score := 0, nrows := 1, ncols := 1 }] } := by
  decide

/-! ## Can-pop is sound -/

theorem pairAt_iff (H : Header) (s : BPState) (i j : Int) :
    pairAt H s i j = true ↔
      bps_get (some s) i j ≠ H.None ∧
        (bps_get (some s) i (j + 1) = bps_get (some s) i j ∨
          bps_get (some s) (i + 1) j = bps_get (some s) i j) := by
  simp [pairAt]

/-- The scan of `bp_can_pop` succeeds exactly when it meets a balloon, outside the last row
and the last column, whose right or lower neighbour holds the same value. -/
theorem bp_can_pop_one_iff (H : Header) (cur : BPState) (rest : List BPState) :
    bp_can_pop H { current := cur :: rest } = some 1 ↔
      ∃ i j, 0 ≤ i ∧ i < cur.nrows - 1 ∧ 0 ≤ j ∧ j < cur.ncols - 1 ∧
        bps_get (some cur) i j ≠ H.None ∧
        (bps_get (some cur) i (j + 1) = bps_get (some cur) i j ∨
          bps_get (some cur) (i + 1) j = bps_get (some cur) i j) := by
  simp only [bp_can_pop]
  constructor
  · intro h
    split at h
    · next hany =>
      simp only [List.any_eq_true, mem_intRange] at hany
      obtain ⟨i, ⟨hi1, hi2⟩, j, ⟨hj1, hj2⟩, hp⟩ := hany
      obtain ⟨h1, h2⟩ := (pairAt_iff H cur i j).mp hp
      exact ⟨i, j, hi1, hi2, hj1, hj2, h1, h2⟩
    · cases h
  · rintro ⟨i, j, hi1, hi2, hj1, hj2, h1, h2⟩
    have hany : ((intRange 0 (cur.nrows - 1)).any fun i =>
        (intRange 0 (cur.ncols - 1)).any fun j => pairAt H cur i j) = true := by
      simp only [List.any_eq_true, mem_intRange]
      exact ⟨i, ⟨hi1, hi2⟩, j, ⟨hj1, hj2⟩, (pairAt_iff H cur i j).mpr ⟨h1, h2⟩⟩
    rw [if_pos hany]

theorem bp_can_pop_values (H : Header) (cur : BPState) (rest : List BPState) :
    bp_can_pop H { current := cur :: rest } = some 1 ∨
      bp_can_pop H { current := cur :: rest } = some 0 := by
  simp only [bp_can_pop]
  split
  · exact Or.inl rfl
  · exact Or.inr rfl

/-- Two adjacent on-board cells holding the same value lie in one cluster of at least two
cells. -/
theorem two_le_ncard_cluster {s : BPState} {r c : Int} (y : Cell) (hr : inRange s r c)
    (hy : inRange s y.1 y.2) (ha : Adj (r, c) y) (he : cellAt s y = bps_get (some s) r c) :
    2 ≤ (cluster s r c).ncard := by
  have h1 : (r, c) ∈ cluster s r c := mem_cluster_self hr
  have h2 : y ∈ cluster s r c := Conn.step (Conn.refl ⟨hr, rfl⟩) ha ⟨hy, he⟩
  have hne : (r, c) ≠ y := by
    intro e
    rw [← e] at ha
    rcases ha with h | h | h | h <;> simp only [Prod.mk.injEq] at h <;> omega
  exact (Set.one_lt_ncard_iff (cluster_finite s r c)).mpr ⟨_, _, h1, h2, hne⟩

/-- C16: on a board in which no two 4-adjacent on-board cells hold the same balloon
`bp_can_pop` returns 0; and whenever `bp_can_pop` returns 1 on a well-formed board within the
maxima, there is a cell at which `bp_pop` (with fuel above the number of cells) returns a
value of at least 2. -/
theorem bp_can_pop_sound (H : Header) (fuel : Nat) (cur : BPState) (rest : List BPState) :
    ((∀ x y : Cell, inRange cur x.1 x.2 → inRange cur y.1 y.2 → Adj x y →
          cellAt cur x ≠ H.None → cellAt cur y ≠ cellAt cur x) →
        bp_can_pop H { current := cur :: rest } = some 0) ∧
      (bp_can_pop H { current := cur :: rest } = some 1 → wfState cur → validDims H cur →
        cur.board.length < fuel →
        ∃ r c b1 n, bp_pop H fuel { current := cur :: rest } r c = some (b1, n) ∧ 2 ≤ n) := by
  constructor
  · intro hno
    rcases bp_can_pop_values H cur rest with h | h
    · exfalso
      obtain ⟨i, j, hi1, hi2, hj1, hj2, h1, h2⟩ := (bp_can_pop_one_iff H cur rest).mp h
      have hin : inRange cur i j := ⟨hi1, by omega, hj1, by omega⟩
      rcases h2 with h2 | h2
      · exact hno (i, j) (i, j + 1) hin ⟨hi1, by omega, by omega, by omega⟩
          (Or.inr (Or.inr (Or.inl rfl))) h1 h2
      · exact hno (i, j) (i + 1, j) hin ⟨by omega, by omega, hj1, by omega⟩
          (Or.inr (Or.inr (Or.inr rfl))) h1 h2
    · exact h
  · intro h hw hd hf
    obtain ⟨i, j, hi1, hi2, hj1, hj2, h1, h2⟩ := (bp_can_pop_one_iff H cur rest).mp h
    have hin : inRange cur i j := ⟨hi1, by omega, hj1, by omega⟩
    have hk : 2 ≤ (cluster cur i j).ncard := by
      rcases h2 with h2 | h2
      · exact two_le_ncard_cluster (i, j + 1) hin ⟨hi1, by omega, by omega, by omega⟩
          (Or.inr (Or.inr (Or.inl rfl))) h2
      · exact two_le_ncard_cluster (i + 1, j) hin ⟨by omega, by omega, hj1, by omega⟩
          (Or.inr (Or.inr (Or.inr rfl))) h2
    obtain ⟨popped, n, -, -, -, -, hn, e⟩ := bp_pop_run H fuel cur rest i j hw hd h1 hf
    have hn2 : ¬ n < 2 := by rw [hn]; omega
    rw [if_neg hn2, if_neg hn2] at e
    exact ⟨i, j, _, n, e, by omega⟩

/-! ## The flood fill terminates -/

/-- C18: on a well-formed snapshot, for every start cell `(r, c)`, in range or not, and every
target token `t` other than `None`, `bps_pop` returns as soon as the fuel exceeds the number
of cells; the count it returns is between 0 and `nrows * ncols` and is the number of cells
whose value changed, and every changed cell reads `None`.  And the target token of the call
that `bp_pop` makes, `bps_get (copy, r, c)`, is never `None`: the call is reached only when
the cell of the current snapshot does not read `None`, and the copy reads the same. -/
theorem bps_pop_terminates (H : Header) (fuel : Nat) (s : BPState) (r c t : Int)
    (hw : wfState s) (ht : t ≠ H.None) (hf : s.board.length < fuel) :
    (∃ s1 n, bps_pop H fuel s r c t = some (s1, n) ∧ 0 ≤ n ∧ n ≤ s.nrows * s.ncols ∧
        n = (Set.ncard {x : Cell | cellAt s1 x ≠ cellAt s x} : Int) ∧
        ∀ x, cellAt s1 x ≠ cellAt s x → cellAt s1 x = H.None) ∧
      ∀ cp, bps_get (some s) r c ≠ H.None → bps_copy H (some s) = some cp →
        bps_get (some cp) r c ≠ H.None := by
  constructor
  · have hcard := lt_of_le_of_lt (card_cellsOf_le hw t) hf
    obtain ⟨s1, n, e, -, g1, g2, g3⟩ := bps_pop_cluster H ht fuel s r c hw hcard
    have hset : {x : Cell | cellAt s1 x ≠ cellAt s x} = {x | Conn s t (r, c) x} := by
      ext x
      simp only [Set.mem_setOf_eq]
      constructor
      · intro hx
        by_contra hc
        exact hx (g2 x hc)
      · intro hx
        rw [g1 x hx, (Conn.holds_right hx).2]
        exact fun e => ht e.symm
    have hsub : {x | Conn s t (r, c) x} ⊆ ((cellsOf s t : Finset Cell) : Set Cell) :=
      fun x hx => (mem_cellsOf s t x).mpr (Conn.holds_right hx)
    have hle : Set.ncard {x | Conn s t (r, c) x} ≤ (cellsOf s t).card := by
      have := Set.ncard_le_ncard hsub (Finset.finite_toSet _)
      rwa [Set.ncard_coe_Finset] at this
    have hlen := card_cellsOf_le hw t
    have hnn : 0 ≤ s.nrows * s.ncols := Int.mul_nonneg hw.1 hw.2.1
    refine ⟨s1, n, e, by rw [g3]; omega, ?_, by rw [hset]; exact g3, ?_⟩
    · rw [g3]
      have h3 := hw.2.2
      omega
    · intro x hx
      apply g1
      by_contra hc
      exact hx (g2 x hc)
  · intro cp hne hcp
    obtain ⟨rfl, -⟩ := bps_copy_eq_of_wf H hw hcp
    exact hne

theorem bps_pop_terminates_witness :
    wfState pairBoard ∧ (94 : Int) ≠ stdHeader.None ∧ pairBoard.board.length < 3 ∧
      ((∃ s1 n, bps_pop stdHeader 3 pairBoard 0 0 94 = some (s1, n) ∧ 0 ≤ n ∧
          n ≤ pairBoard.nrows * pairBoard.ncols ∧
          n = (Set.ncard {x : Cell | cellAt s1 x ≠ cellAt pairBoard x} : Int) ∧
          ∀ x, cellAt s1 x ≠ cellAt pairBoard x → cellAt s1 x = stdHeader.None) ∧
        ∀ cp, bps_get (some pairBoard) 0 0 ≠ stdHeader.None →
          bps_copy stdHeader (some pairBoard) = some cp →
          bps_get (some cp) 0 0 ≠ stdHeader.None) :=
  ⟨by decide, by decide, by decide,
    bps_pop_terminates stdHeader 3 pairBoard 0 0 94 (by decide) (by decide) (by decide)⟩

/-! ## The 4 by 4 scenario -/

theorem scenarioBoard_wf (a b c d : Int) : wfState (scenarioBoard a b c d) :=
  ⟨(by decide : (0 : Int) ≤ 4), (by decide : (0 : Int) ≤ 4), rfl⟩

theorem scenarioFirst_wf (N a b c d : Int) : wfState (scenarioFirst N a b c d) :=
  ⟨(by decide : (0 : Int) ≤ 4), (by decide : (0 : Int) ≤ 4), rfl⟩

theorem scenarioBoard_cells (a b c d r k : Int) (hr : inRange (scenarioBoard a b c d) r k) :
    bps_get (some (scenarioBoard a b c d)) r k = scenarioMtx a b c d r k := by
  obtain ⟨h1, h2, h3, h4⟩ := hr
  simp only [scenarioBoard] at h2 h4
  interval_cases r <;> interval_cases k <;> simp [bps_get, scenarioBoard, scenarioMtx]

/-- The flood fill from `(0, 0)` on the scenario board clears `(0, 0)` and `(0, 1)`. -/
theorem scenario_flood_first (H : Header) (a b c d : Int) (hab : a ≠ b) (hN : a ≠ H.None) :
    bps_pop H 4 (scenarioBoard a b c d) 0 0 a =
      some ({ scenarioFirst H.None a b c d with score := 0 }, 2) := by
  have hba : b ≠ a := fun e => hab e.symm
  have hNa : H.None ≠ a := fun e => hN e.symm
  simp [bps_pop, bps_get, setCell, scenarioBoard, scenarioFirst, hab, hN, hba, hNa]

/-- The flood fill from `(3, 0)` on the board left by the first pop clears the last row. -/
theorem scenario_flood_second (H : Header) (a b c d : Int) (had : a ≠ d) (hbd : b ≠ d)
    (hcd : c ≠ d) (hN : d ≠ H.None) :
    bps_pop H 6 (scenarioFirst H.None a b c d) 3 0 d =
      some ({ scenarioSecond H.None a b c with score := 2 }, 4) := by
  have hNd : H.None ≠ d := fun e => hN e.symm
  simp [bps_pop, bps_get, setCell, scenarioFirst, scenarioSecond, had, hbd, hcd, hN, hNd]

/-- C15: for four distinct colours `a`, `b`, `c`, `d` (none of them `None`), maxima of at
least 4 and fuel of at least 6, `bp_create_from_mtx` on the matrix `a a b c / b b c c /
a a b c / d d d d` builds the scenario board; `bp_pop (0, 0)` returns 2, empties exactly
`(0, 0)` and `(0, 1)` and makes the score 2; the following `bp_pop (3, 0)` returns 4, empties
the four cells of the last row and makes the score 14. -/
theorem scenario_pops (H : Header) (rnd : Nat → Nat) (fuel : Nat) (a b c d : Int)
    (hnd : [H.None, a, b, c, d].Nodup) (hmr : 4 ≤ H.MAX_ROWS) (hmc : 4 ≤ H.MAX_COLS)
    (hf : 6 ≤ fuel) :
    bp_create_from_mtx H rnd (scenarioMtx a b c d) 4 4 =
        some { current := [scenarioBoard a b c d] } ∧
      bp_pop H fuel { current := [scenarioBoard a b c d] } 0 0 =
        some ({ current := [scenarioFirst H.None a b c d, scenarioBoard a b c d] }, 2) ∧
      bp_score { current := [scenarioFirst H.None a b c d, scenarioBoard a b c d] } = some 2 ∧
      bp_pop H fuel { current := [scenarioFirst H.None a b c d, scenarioBoard a b c d] } 3 0 =
        some ({ current := [scenarioSecond H.None a b c, scenarioFirst H.None a b c d,
          scenarioBoard a b c d] }, 4) ∧
      bp_score { current := [scenarioSecond H.None a b c, scenarioFirst H.None a b c d,
          scenarioBoard a b c d] } = some 14 := by
  simp only [List.nodup_cons, List.mem_cons, List.mem_singleton, not_or, List.not_mem_nil,
    not_false_eq_true, List.nodup_nil, and_true] at hnd
  obtain ⟨⟨hNa, hNb, hNc, hNd⟩, ⟨hab, hac, had⟩, ⟨hbc, hbd⟩, hcd⟩ := hnd
  have haN : a ≠ H.None := fun e => hNa e.symm
  have hdN : d ≠ H.None := fun e => hNd e.symm
  refine ⟨?_, ?_, rfl, ?_, rfl⟩
  · obtain ⟨s, e, w, r1, c1, sc, g⟩ :=
      bp_create_from_mtx_good H rnd (scenarioMtx a b c d) (by decide : (0 : Int) ≤ 4) hmr
        (by decide : (0 : Int) ≤ 4) hmc
    have hs : s = scenarioBoard a b c d := by
      apply state_ext (scenarioBoard_wf a b c d) w r1 c1 sc
      intro r k hr
      rw [scenarioBoard_cells a b c d r k hr]
      apply g
      unfold inRange at hr ⊢
      rw [r1, c1]
      exact hr
    rw [e, hs]
  · have hd : validDims H (scenarioBoard a b c d) := ⟨hmr, hmc⟩
    have hget : bps_get (some (scenarioBoard a b c d)) 0 0 = a := by
      simp [bps_get, scenarioBoard]
    have hpop := bps_pop_fuel_mono H a (le_trans (by decide : 4 ≤ 6) hf)
      (scenario_flood_first H a b c d hab haN)
    unfold bp_pop
    simp only [List.head?_cons]
    rw [hget, if_neg haN, bps_copy_wf H (scenarioBoard_wf a b c d) hd]
    simp only [hget, hpop]
    simp [wrapInt, scenarioFirst]
  · have hd : validDims H (scenarioFirst H.None a b c d) := ⟨hmr, hmc⟩
    have hget : bps_get (some (scenarioFirst H.None a b c d)) 3 0 = d := by
      simp [bps_get, scenarioFirst]
    have hpop := bps_pop_fuel_mono H d hf (scenario_flood_second H a b c d had hbd hcd hdN)
    unfold bp_pop
    simp only [List.head?_cons]
    rw [hget, if_neg hdN, bps_copy_wf H (scenarioFirst_wf H.None a b c d) hd]
    simp only [hget, hpop]
    simp [wrapInt, scenarioSecond]

theorem scenario_pops_witness :
    [stdHeader.None, 94, 61, 111, 43].Nodup ∧ 4 ≤ stdHeader.MAX_ROWS ∧
      4 ≤ stdHeader.MAX_COLS ∧ 6 ≤ 17 ∧
      (bp_create_from_mtx stdHeader (fun k => k) (scenarioMtx 94 61 111 43) 4 4 =
          some { current := [scenarioBoard 94 61 111 43] } ∧
        bp_pop stdHeader 17 { current := [scenarioBoard 94 61 111 43] } 0 0 =
          some ({ current := [scenarioFirst stdHeader.None 94 61 111 43,
            scenarioBoard 94 61 111 43] }, 2) ∧
        bp_score { current := [scenarioFirst stdHeader.None 94 61 111 43,
            scenarioBoard 94 61 111 43] } = some 2 ∧
        bp_pop stdHeader 17 { current := [scenarioFirst stdHeader.None 94 61 111 43,
            scenarioBoard 94 61 111 43] } 3 0 =
          some ({ current := [scenarioSecond stdHeader.None 94 61 111,
            scenarioFirst stdHeader.None 94 61 111 43, scenarioBoard 94 61 111 43] }, 4) ∧
        bp_score { current := [scenarioSecond stdHeader.None 94 61 111,
            scenarioFirst stdHeader.None 94 61 111 43, scenarioBoard 94 61 111 43] } =
          some 14) :=
  ⟨by decide, by decide, by decide, by decide,
    scenario_pops stdHeader (fun k => k) 17 94 61 111 43 (by decide) (by decide) (by decide)
      (by decide)⟩

/-! ## Counting empty cells -/

/-- A flood fill of `n` cells for a token other than `None` adds `n` empty cells. -/
theorem Flood.empty_count {H : Header} {t : Int} {s s1 : BPState} {n : Int} {S : Cell → Prop}
    (h : Flood H t s s1 n S) (ht : t ≠ H.None) :
    ((cellsOf s1 H.None).card : Int) = ((cellsOf s H.None).card : Int) + n := by
  have hin : ∀ x : Cell, inRange s1 x.1 x.2 ↔ inRange s x.1 x.2 := fun x => by
    unfold inRange; rw [h.nrows, h.ncols]
  have hsub : cellsOf s1 t ⊆ cellsOf s t := fun x hx =>
    (mem_cellsOf s t x).mpr (h.holds_mono x ((mem_cellsOf s1 t x).mp hx))
  have heq : cellsOf s1 H.None = cellsOf s H.None ∪ (cellsOf s t \ cellsOf s1 t) := by
    ext x
    simp only [Finset.mem_union, Finset.mem_sdiff, mem_cellsOf]
    constructor
    · rintro ⟨h1, h2⟩
      rcases h.frame x with e | ⟨a, b, -⟩
      · exact Or.inl ⟨(hin x).mp h1, e ▸ h2⟩
      · exact Or.inr ⟨a, fun hh => ht (hh.2.symm.trans b)⟩
    · rintro (⟨h1, h2⟩ | ⟨h1, h2⟩)
      · refine ⟨(hin x).mpr h1, ?_⟩
        rcases h.frame x with e | ⟨a, b, -⟩
        · exact e.trans h2
        · exact b
      · refine ⟨(hin x).mpr h1.1, ?_⟩
        rcases h.frame x with e | ⟨a, b, -⟩
        · exact absurd ⟨(hin x).mpr h1.1, e.trans h1.2⟩ h2
        · exact b
  have hdisj : Disjoint (cellsOf s H.None) (cellsOf s t \ cellsOf s1 t) := by
    rw [Finset.disjoint_left]
    intro x hx hx2
    have h1 := ((mem_cellsOf s H.None x).mp hx).2
    have h2 := ((mem_cellsOf s t x).mp (Finset.mem_sdiff.mp hx2).1).2
    exact ht (h2.symm.trans h1)
  rw [heq, Finset.card_union_of_disjoint hdisj, Finset.card_sdiff hsub]
  have h1 := h.count
  have h2 := Finset.card_le_card hsub
  push_cast
  omega

/-- The loop body of the float step keeps the number of empty cells. -/
theorem floatCell_empty_count (H : Header) {st : BPState} (hw : wfState st) {i j : Int}
    (hr : inRange st i j) (hi : 1 ≤ i) :
    (cellsOf (floatCell H st i j) H.None).card = (cellsOf st H.None).card := by
  by_cases hfl : floats H st i j = true
  · obtain ⟨hwne, hu⟩ := (floats_iff H st i j).mp hfl
    have hr1 : inRange st (i - 1) j := ⟨by omega, by have := hr.2.1; omega, hr.2.2.1, hr.2.2.2⟩
    have hshape := floatCell_shape H (sameShape_self hw) i j
    have heq : cellsOf (floatCell H st i j) H.None =
        insert (i, j) ((cellsOf st H.None).erase (i - 1, j)) := by
      ext x
      obtain ⟨a, b⟩ := x
      simp only [Finset.mem_insert, Finset.mem_erase, mem_cellsOf, holds, cellAt,
        hshape.inRange_iff, get_floatCell_moved H hw hr hi hfl, Prod.mk.injEq, ne_eq]
      by_cases e1 : a = i ∧ b = j
      · obtain ⟨rfl, rfl⟩ := e1
        simp [hr]
      · by_cases e2 : a = i - 1 ∧ b = j
        · obtain ⟨rfl, rfl⟩ := e2
          simp [e1, hwne]
        · simp [e1, e2]
    have hp : (i - 1, j) ∈ cellsOf st H.None := (mem_cellsOf st _ _).mpr ⟨hr1, hu⟩
    have hq : (i, j) ∉ (cellsOf st H.None).erase (i - 1, j) := by
      intro hm
      exact hwne ((mem_cellsOf st _ _).mp (Finset.mem_of_mem_erase hm)).2
    rw [heq, Finset.card_insert_of_not_mem hq, Finset.card_erase_of_mem hp]
    have := Finset.card_pos.mpr ⟨_, hp⟩
    omega
  · have : floatCell H st i j = st := by unfold floatCell; rw [if_neg hfl]
    rw [this]

/-- A float step keeps the number of empty cells. -/
theorem floatState_empty_count (H : Header) {s : BPState} (hw : wfState s) :
    (cellsOf (floatState H s) H.None).card = (cellsOf s H.None).card := by
  have h : SameShape s (floatState H s) ∧
      (cellsOf (floatState H s) H.None).card = (cellsOf s H.None).card := by
    unfold floatState
    apply foldl_intRange_keep (fun x i => floatRow H x i)
      (fun x => SameShape s x ∧ (cellsOf x H.None).card = (cellsOf s H.None).card)
    · exact ⟨sameShape_self hw, rfl⟩
    · intro i x hi1 hi2 hx
      unfold floatRow
      apply foldl_intRange_keep (fun y j => floatCell H y i j)
        (fun y => SameShape s y ∧ (cellsOf y H.None).card = (cellsOf s H.None).card)
      · exact hx
      · intro j y hj1 hj2 hy
        refine ⟨floatCell_shape H hy.1 i j, ?_⟩
        rw [floatCell_empty_count H hy.1.1 ?_ hi1, hy.2]
        rw [hy.1.inRange_iff]
        rw [hx.1.2.2.1] at hj2
        exact ⟨by omega, hi2, hj1, hj2⟩
  exact h.2

/-! ## The score of a reachable session -/

theorem card_cellsOf_le_cells {s : BPState} (hw : wfState s) (t : Int) :
    ((cellsOf s t).card : Int) ≤ s.nrows * s.ncols := by
  have h1 := card_cellsOf_le hw t
  have h2 := hw.2.2
  have h3 : 0 ≤ s.nrows * s.ncols := Int.mul_nonneg hw.1 hw.2.1
  omega

theorem cells_le_maxima {H : Header} {s : BPState} (hw : wfState s) (hd : validDims H s) :
    s.nrows * s.ncols ≤ H.MAX_ROWS * H.MAX_COLS :=
  Int.mul_le_mul hd.1 hd.2 hw.2.1 (le_trans hw.1 hd.1)

theorem pair_count_mono {e n : Int} (he : 0 ≤ e) (hen : e ≤ n) : e * (e - 1) ≤ n * (n - 1) := by
  rcases eq_or_lt_of_le hen with h | h
  · rw [h]
  · have h1 : 0 ≤ n - e := by omega
    have h2 : 0 ≤ n + e - 1 := by omega
    nlinarith [mul_nonneg h1 h2]

theorem pair_count_add {e n sc : Int} (he : 0 ≤ e) (hn : 0 ≤ n) (hsc : sc ≤ e * (e - 1)) :
    sc + n * (n - 1) ≤ (e + n) * (e + n - 1) := by
  nlinarith [Int.mul_nonneg he hn]

/-- The score of a good snapshot is at most `N * (N - 1)` for `N` the number of cells, which
is a value of an `int` when the maxima allow at most 46341 cells. -/
theorem GoodState.score_le {H : Header} {s : BPState} (h : GoodState H s)
    (hmax : H.MAX_ROWS * H.MAX_COLS ≤ 46341) :
    s.score ≤ s.nrows * s.ncols * (s.nrows * s.ncols - 1) ∧
      s.nrows * s.ncols * (s.nrows * s.ncols - 1) ≤ 2147483647 := by
  obtain ⟨hw, hd, h0, h1⟩ := h
  have hN := card_cellsOf_le_cells hw H.None
  have hM := cells_le_maxima hw hd
  have hnn : 0 ≤ s.nrows * s.ncols := Int.mul_nonneg hw.1 hw.2.1
  refine ⟨le_trans h1 (pair_count_mono (by positivity) hN), ?_⟩
  have := pair_count_mono hnn (le_trans hM hmax)
  omega

theorem ChainScores.head_good {H : Header} {s : BPState} {rest : List BPState}
    {ns : List Int} (h : ChainScores H (s :: rest) ns) : GoodState H s := by
  cases rest with
  | nil =>
    cases ns with
    | nil => exact h.1
    | cons n ns => simp [ChainScores] at h
  | cons s1 rest =>
    cases ns with
    | nil => simp [ChainScores] at h
    | cons n ns => exact h.1

theorem ChainScores.replace_head {H : Header} {s s1 : BPState} {rest : List BPState}
    {ns : List Int} (h : ChainScores H (s :: rest) ns) (hg : GoodState H s1)
    (hs : s1.score = s.score) : ChainScores H (s1 :: rest) ns := by
  cases rest with
  | nil =>
    cases ns with
    | nil => exact ⟨hg, hs.trans h.2⟩
    | cons n ns => simp [ChainScores] at h
  | cons s2 rest =>
    cases ns with
    | nil => simp [ChainScores] at h
    | cons n ns => exact ⟨hg, h.2.1, hs.trans h.2.2.1, h.2.2.2⟩

theorem ChainScores.sum {H : Header} : ∀ (l : List BPState) (ns : List Int) (s : BPState),
    ChainScores H (s :: l) ns →
      ns.length = l.length ∧ (∀ n ∈ ns, 2 ≤ n) ∧
        s.score = (ns.map (fun n => n * (n - 1))).sum := by
  intro l
  induction l with
  | nil =>
    intro ns s h
    cases ns with
    | nil => exact ⟨rfl, fun n hn => by simp at hn, by simpa using h.2⟩
    | cons n ns => simp [ChainScores] at h
  | cons s1 rest ih =>
    intro ns s h
    cases ns with
    | nil => simp [ChainScores] at h
    | cons n ns =>
      obtain ⟨-, h2, h3, h4⟩ := h
      obtain ⟨i1, i2, i3⟩ := ih ns s1 h4
      refine ⟨by simp [i1], ?_, ?_⟩
      · intro m hm
        rcases List.mem_cons.mp hm with e | e
        · rw [e]; exact h2
        · exact i2 m e
      · rw [h3, i3]; simp [add_comm]

/-- `bp_pop` keeps the chain invariant, when the maxima allow at most 46341 cells. -/
theorem ChainScores.pop {H : Header} (hmax : H.MAX_ROWS * H.MAX_COLS ≤ 46341) {fuel : Nat}
    {cur : BPState} {rest : List BPState} {ns : List Int} {r c n : Int} {b1 : BPGame}
    (h : ChainScores H (cur :: rest) ns)
    (hp : bp_pop H fuel { current := cur :: rest } r c = some (b1, n)) :
    ∃ cur1 rest1 ns1, b1.current = cur1 :: rest1 ∧ ChainScores H (cur1 :: rest1) ns1 := by
  rcases bp_pop_cases H fuel _ b1 r c n hp with ⟨h1, -⟩ | ⟨cp, popped, hne, hcp, hpop, h2, hb⟩
  · exact ⟨cur, rest, ns, by rw [h1], h⟩
  · obtain ⟨hw, hd, hs0, hs1⟩ := h.head_good
    simp only [List.head?_cons] at hne hcp
    obtain ⟨rfl, -⟩ := bps_copy_eq_of_wf H hw hcp
    -- rerun the flood fill with enough fuel
    have hcard : (cellsOf cp (bps_get (some cp) r c)).card < max fuel (cp.board.length + 1) :=
      lt_of_le_of_lt (card_cellsOf_le hw _) (by omega)
    obtain ⟨s1, n1, e1, fl, -, -⟩ :=
      bps_pop_flood H hne (max fuel (cp.board.length + 1)) cp r c hw hcard
    have e2 := bps_pop_fuel_mono H _ (le_max_left fuel (cp.board.length + 1)) hpop
    rw [e1] at e2
    obtain ⟨rfl, rfl⟩ := Prod.mk.inj (Option.some.inj e2)
    have hcount := fl.empty_count hne
    have hwp : wfState s1 := fl.wf
    have hdp : validDims H s1 := by
      unfold validDims; rw [fl.nrows, fl.ncols]; exact hd
    have hnn : 0 ≤ n1 := by omega
    have hle : cp.score + n1 * (n1 - 1) ≤
        ((cellsOf s1 H.None).card : Int) * (((cellsOf s1 H.None).card : Int) - 1) := by
      rw [hcount]
      exact pair_count_add (by positivity) hnn hs1
    have hge : 0 ≤ cp.score + n1 * (n1 - 1) := by nlinarith
    have hN := card_cellsOf_le_cells hwp H.None
    have hM := cells_le_maxima hwp hdp
    have hbig : ((cellsOf s1 H.None).card : Int) * (((cellsOf s1 H.None).card : Int) - 1) ≤
        2147483647 := by
      have := pair_count_mono (e := ((cellsOf s1 H.None).card : Int)) (by positivity)
        (le_trans hN (le_trans hM hmax))
      omega
    have hscore : wrapInt (s1.score + wrapInt (n1 * (n1 - 1))) = cp.score + n1 * (n1 - 1) := by
      rw [wrapInt_add_wrapInt, fl.score]
      exact wrapInt_of_fits (by omega) (by omega)
    refine ⟨{ s1 with score := wrapInt (s1.score + wrapInt (n1 * (n1 - 1))) }, cp :: rest,
      n1 :: ns, by rw [hb], ?_⟩
    refine ⟨⟨hwp, hdp, ?_, ?_⟩, h2, hscore, h⟩
    · show 0 ≤ wrapInt (s1.score + wrapInt (n1 * (n1 - 1)))
      rw [hscore]; exact hge
    · show wrapInt (s1.score + wrapInt (n1 * (n1 - 1))) ≤
        ((cellsOf s1 H.None).card : Int) * (((cellsOf s1 H.None).card : Int) - 1)
      rw [hscore]; exact hle

/-- Every reachable session has a current snapshot and satisfies the chain invariant. -/
theorem Reachable.chain {H : Header} (hmax : H.MAX_ROWS * H.MAX_COLS ≤ 46341) {b : BPGame}
    (hb : Reachable H b) :
    ∃ cur rest ns, b.current = cur :: rest ∧ ChainScores H (cur :: rest) ns := by
  induction hb with
  | create rnd nrows ncols b h0 h2 hc =>
    have h1 : nrows ≤ H.MAX_ROWS ∧ ncols ≤ H.MAX_COLS := by
      by_contra hcon
      have : nrows > H.MAX_ROWS ∨ ncols > H.MAX_COLS := by omega
      simp [bp_create, if_pos this] at hc
    obtain ⟨s, e, w, a, b0, sc⟩ := bp_create_good H rnd h0 h1.1 h2 h1.2
    rw [e] at hc
    obtain rfl := Option.some.inj hc
    refine ⟨s, [], [], rfl, ⟨w, ⟨by rw [a]; exact h1.1, by rw [b0]; exact h1.2⟩, by omega, ?_⟩, sc⟩
    rw [sc]
    have : (0 : Int) ≤ ((cellsOf s H.None).card : Int) := by positivity
    simpa using pair_count_mono (le_refl (0 : Int)) this
  | from_mtx rnd mtx nrows ncols b h0 h2 hc =>
    have h1 : nrows ≤ H.MAX_ROWS ∧ ncols ≤ H.MAX_COLS := by
      by_contra hcon
      have : nrows > H.MAX_ROWS ∨ ncols > H.MAX_COLS := by omega
      simp [bp_create_from_mtx, bp_create, if_pos this] at hc
    obtain ⟨s, e, w, a, b0, sc, -⟩ := bp_create_from_mtx_good H rnd mtx h0 h1.1 h2 h1.2
    rw [e] at hc
    obtain rfl := Option.some.inj hc
    refine ⟨s, [], [], rfl, ⟨w, ⟨by rw [a]; exact h1.1, by rw [b0]; exact h1.2⟩, by omega, ?_⟩, sc⟩
    rw [sc]
    have : (0 : Int) ≤ ((cellsOf s H.None).card : Int) := by positivity
    simpa using pair_count_mono (le_refl (0 : Int)) this
  | pop fuel b b1 r c n _ hp ih =>
    obtain ⟨cur, rest, ns, hcur, hch⟩ := ih
    obtain ⟨bc⟩ := b
    simp only at hcur
    subst hcur
    exact hch.pop hmax hp
  | undo b b1 v _ hu ih =>
    obtain ⟨cur, rest, ns, hcur, hch⟩ := ih
    obtain ⟨bc⟩ := b
    simp only at hcur
    subst hcur
    cases rest with
    | nil =>
      simp only [bp_undo, Option.some.injEq, Prod.mk.injEq] at hu
      exact ⟨cur, [], ns, by rw [← hu.1], hch⟩
    | cons s1 rest =>
      simp only [bp_undo, Option.some.injEq, Prod.mk.injEq] at hu
      cases ns with
      | nil => simp [ChainScores] at hch
      | cons n ns => exact ⟨s1, rest, ns, by rw [← hu.1], hch.2.2.2⟩
  | float b b1 _ hf ih =>
    obtain ⟨cur, rest, ns, hcur, hch⟩ := ih
    obtain ⟨bc⟩ := b
    simp only at hcur
    subst hcur
    simp only [bp_float_one_step, Option.some.injEq] at hf
    obtain ⟨hw, hd, hs0, hs1⟩ := hch.head_good
    obtain ⟨hshape, -⟩ := floatState_closed H hw
    refine ⟨floatState H cur, rest, ns, by rw [← hf], hch.replace_head ?_ hshape.2.2.2⟩
    refine ⟨hshape.1, ?_, ?_, ?_⟩
    · unfold validDims; rw [hshape.2.1, hshape.2.2.1]; exact hd
    · rw [hshape.2.2.2]; exact hs0
    · rw [hshape.2.2.2, floatState_empty_count H hw]; exact hs1

/-- C19: when the maxima allow at most 46341 cells, every session reachable from `bp_create`
or `bp_create_from_mtx` (with non-negative dimensions) by calls of `bp_pop`, `bp_undo` and
`bp_float_one_step` has a current snapshot whose score is at least 0 and at most `N * (N - 1)`
for `N = nrows * ncols`, a bound that is a value of a 32-bit `int`; and the score is the sum
of `n * (n - 1)` over the counts `n ≥ 2` of the pops not yet undone, one for each older
snapshot of the chain. -/
theorem bp_score_bounded (H : Header) (hmax : H.MAX_ROWS * H.MAX_COLS ≤ 46341) (b : BPGame)
    (hb : Reachable H b) :
    ∃ (cur : BPState) (rest : List BPState) (ns : List Int), b.current = cur :: rest ∧ bp_score b = some cur.score ∧ 0 ≤ cur.score ∧
      cur.score ≤ cur.nrows * cur.ncols * (cur.nrows * cur.ncols - 1) ∧
      cur.nrows * cur.ncols * (cur.nrows * cur.ncols - 1) ≤ 2147483647 ∧
      ns.length = rest.length ∧ (∀ n ∈ ns, 2 ≤ n) ∧
      cur.score = (ns.map (fun n => n * (n - 1))).sum := by
  obtain ⟨cur, rest, ns, hcur, hch⟩ := hb.chain hmax
  obtain ⟨h1, h2, h3⟩ := ChainScores.sum rest ns cur hch
  have hg := hch.head_good
  obtain ⟨h4, h5⟩ := hg.score_le hmax
  refine ⟨cur, rest, ns, hcur, ?_, hg.2.2.1, h4, h5, h1, h2, h3⟩
  simp only [bp_score, hcur]

theorem bp_score_bounded_witness :
    stdHeader.MAX_ROWS * stdHeader.MAX_COLS ≤ 46341 ∧
      Reachable stdHeader { current := [pairPopped, pairBoard] } ∧
      ∃ (cur : BPState) (rest : List BPState) (ns : List Int),
        ({ current := [pairPopped, pairBoard] } : BPGame).current = cur :: rest ∧
        bp_score { current := [pairPopped, pairBoard] } = some cur.score ∧ 0 ≤ cur.score ∧
        cur.score ≤ cur.nrows * cur.ncols * (cur.nrows * cur.ncols - 1) ∧
        cur.nrows * cur.ncols * (cur.nrows * cur.ncols - 1) ≤ 2147483647 ∧
        ns.length = rest.length ∧ (∀ n ∈ ns, 2 ≤ n) ∧
        cur.score = (ns.map (fun n => n * (n - 1))).sum :=
  ⟨by decide,
    Reachable.pop 3 { current := [pairBoard] } { current := [pairPopped, pairBoard] } 0 0 2
      (Reachable.from_mtx (fun k => k) (fun _ _ => 94) 1 2 { current := [pairBoard] }
        (by decide) (by decide) (by decide)) (by decide),
    bp_score_bounded stdHeader (by decide) { current := [pairPopped, pairBoard] }
      (Reachable.pop 3 { current := [pairBoard] } { current := [pairPopped, pairBoard] } 0 0 2
        (Reachable.from_mtx (fun k => k) (fun _ _ => 94) 1 2 { current := [pairBoard] }
          (by decide) (by decide) (by decide)) (by decide))⟩

/-! ## Float and compactness agree -/

/-- On a board that passes the scan of `bp_is_compact` every cell at or below a gap of its
column is empty. -/
theorem settled_of_compact (H : Header) {cur : BPState} (rest : List BPState)
    (h : bp_is_compact H { current := cur :: rest } = some 1) : settledFrom H cur 0 := by
  have hall := (direct_iff_all_above H cur).mp ((bp_is_compact_direct H cur rest).mp h)
  intro i j hr _ hnf
  by_contra hne
  apply hnf
  intro k hk0 hk1
  by_cases e : k = i
  · rw [e]; exact hne
  · exact hall i j hr hne k hk0 (by omega)

/-- C20: on a well-formed board `bp_float_one_step` leaves the session as it is if and only
if `bp_is_compact` returns 1; and when `bp_is_compact` returns 0, the float step moves some
balloon of a cell `(i, j)` into the empty cell `(i - 1, j)`. -/
theorem bp_float_fixed_iff_compact (H : Header) (cur : BPState) (rest : List BPState)
    (hw : wfState cur) :
    (bp_float_one_step H { current := cur :: rest } = some { current := cur :: rest } ↔
        bp_is_compact H { current := cur :: rest } = some 1) ∧
      (bp_is_compact H { current := cur :: rest } = some 0 →
        ∃ nw i j, bp_float_one_step H { current := cur :: rest } = some { current := nw :: rest } ∧
          inRange cur i j ∧ 1 ≤ i ∧ bps_get (some cur) i j ≠ H.None ∧
          bps_get (some cur) (i - 1) j = H.None ∧
          bps_get (some nw) (i - 1) j = bps_get (some cur) i j) := by
  obtain ⟨hshape, hcl⟩ := floatState_closed H hw
  -- a balloon right below an empty cell moves into it
  have hmove : ∀ i j, inRange cur i j → 1 ≤ i → bps_get (some cur) (i - 1) j = H.None →
      bps_get (some (floatState H cur)) (i - 1) j = bps_get (some cur) i j := by
    intro i j hr hi hu
    have hr1 : inRange cur (i - 1) j := ⟨by omega, by have := hr.2.1; omega, hr.2.2.1, hr.2.2.2⟩
    have hnf : ¬ fullTo H cur (i - 1) j := fun hf => hf (i - 1) (by omega) (le_refl _) hu
    rw [(hcl (i - 1) j hr1).2 hnf]
    unfold belowOf
    have : i - 1 + 1 < cur.nrows := by have := hr.2.1; omega
    rw [if_pos this]
    congr 1
    omega
  constructor
  · constructor
    · intro hfix
      have hst : floatState H cur = cur := by
        simp only [bp_float_one_step, Option.some.injEq, BPGame.mk.injEq, List.cons.injEq,
          and_true] at hfix
        exact hfix
      rw [bp_is_compact_direct]
      intro i j hr hi hne hu
      have := hmove i j hr hi hu
      rw [hst, hu] at this
      exact hne this.symm
    · intro hc
      have hset := settled_of_compact H rest hc
      have hst : floatState H cur = cur := by
        apply state_ext hw hshape.1 hshape.2.1 hshape.2.2.1 hshape.2.2.2
        intro a b hr
        by_cases hf : fullTo H cur a b
        · exact (hcl a b hr).1 hf
        · rw [(hcl a b hr).2 hf, hset a b hr hr.1 hf]
          unfold belowOf
          split
          · next hlt =>
            exact hset (a + 1) b ⟨by have := hr.1; omega, hlt, hr.2.2.1, hr.2.2.2⟩
              (by have := hr.1; omega)
              (fun hf1 => hf (by have := fullTo_pred hf1; simpa using this))
          · rfl
      simp only [bp_float_one_step, hst]
  · intro h0
    have hnot : ¬ (bp_is_compact H { current := cur :: rest } = some 1) := by
      rw [h0]; simp
    rw [bp_is_compact_direct] at hnot
    push_neg at hnot
    obtain ⟨i, j, hr, hi, hne, hu⟩ := hnot
    exact ⟨floatState H cur, i, j, rfl, hr, hi, hne, hu, hmove i j hr hi hu⟩

theorem bp_float_fixed_iff_compact_witness :
    wfState gapOnTop ∧
      ((bp_float_one_step stdHeader { current := [gapOnTop] } = some { current := [gapOnTop] } ↔
          bp_is_compact stdHeader { current := [gapOnTop] } = some 1) ∧
        (bp_is_compact stdHeader { current := [gapOnTop] } = some 0 →
          ∃ nw i j, bp_float_one_step stdHeader { current := [gapOnTop] } =
              some { current := [nw] } ∧
            inRange gapOnTop i j ∧ 1 ≤ i ∧ bps_get (some gapOnTop) i j ≠ stdHeader.None ∧
            bps_get (some gapOnTop) (i - 1) j = stdHeader.None ∧
            bps_get (some nw) (i - 1) j = bps_get (some gapOnTop) i j)) :=
  ⟨by decide, bp_float_fixed_iff_compact stdHeader gapOnTop [] (by decide)⟩

end BP
